import Mathlib

/-!
# Verification of the astra-network-analytical topology / routing / transport core

Shallow embedding, translated from the C++ sources of the repository
(`src/congestion_aware/network/Link.cpp`, `src/congestion_aware/basic-topology/FatTree.cpp`,
`src/congestion_aware/multi-dim-topology/MultiDimTopology.cpp`, the `ExpanderGraph`,
`SwitchOrExpander` and `EpExpanderTopology` translation units, and
`common/NetworkFunction.cpp`), with the few missing units (`EventQueue`, `Device`,
`Chunk`, `Ring`, `Switch`) modelled from the specification where a claim needs them.

Conventions of the embedding:
* `DeviceId`, `EventTime`, `Latency`, `ChunkSize` are natural numbers
  (the sources use non-negative `int` / `uint64_t` values).
* C++ `double` bandwidth arithmetic is modelled with exact rationals `ℚ`;
  `static_cast<EventTime>(x)` on a non-negative value is `Int.toNat ⌊x⌋`.
* C++ loops are translated into structural recursion; where the source loop's
  termination depends on runtime data (BFS / Dijkstra / the event loop) the
  recursion carries an explicit fuel argument, and the code-facing wrappers
  instantiate the fuel with a bound that provably dominates the number of
  iterations the C++ loop performs.
* `std::map` / caches are association lists, `std::set` is a membership list.
-/

namespace AstraNet

abbrev DeviceId := Nat
abbrev EventTime := Nat

/-! ## `common/NetworkFunction.cpp` -/

/-- `bw_GBps_to_Bpns` (`src/unnamed/part_005`): conversion of bandwidth from GB/s
to B/ns.  Using decimal GB, `1 GB/s = 1e9 B/s = 1 B/ns`, so the conversion is the
identity (the source explicitly notes that the previous `(1 << 30)`-based GiB
conversion was removed). -/
def bw_GBps_to_Bpns (bw_GBps : ℚ) : ℚ := bw_GBps

/-! ## `congestion_aware/network/Link.cpp`

A `Chunk` (its implementation file is absent from `src/`) is, per the spec §3/§4.D:
an immutable size in bytes, an immutable route (ordered device-id list) and a
mutable cursor indexing the current device.  `Link` state and its `send` /
`schedule_chunk_transmission` transitions are translated from `Link.cpp`
(the congestion-logging statements of the source are pure output and are not part
of the state). -/

/-- Modelled from the spec: a chunk is an immutable byte size, an immutable route
(ordered list of device ids `[src, …, dst]`) and a cursor indexing the route
(`Chunk.cpp` is not under `src/`; spec §3 and §4.D). -/
structure Chunk where
  size : Nat
  route : List DeviceId
  cursor : Nat
deriving Repr, DecidableEq

/-- A link is identified by its (source device, next device) pair. -/
abbrev LinkId := DeviceId × DeviceId

/-- The two event kinds a `Link` schedules: `Chunk::chunk_arrived_next_device`
and `Link::link_become_free` (the payload of the latter is the link itself). -/
inductive SimEvent where
  | chunkArrival (c : Chunk)
  | linkBecomeFree (lid : LinkId)
deriving Repr, DecidableEq

/-- Link state per `Link.h`/`Link.cpp`: converted bandwidth in B/ns, latency,
the pending-chunk queue and the busy flag.  The constructor sets
`bandwidth_Bpns = bw_GBps_to_Bpns(bandwidth)` and starts `free` with an empty
queue. -/
structure LinkState where
  bandwidth_Bpns : ℚ
  latency : Nat
  pending_chunks : List Chunk
  busy : Bool
deriving Repr, DecidableEq

/-- `Link::Link(bandwidth, latency)`: initially not busy, no pending chunks,
`bandwidth_Bpns = bw_GBps_to_Bpns bandwidth`. -/
def mkLink (bandwidth : ℚ) (latency : Nat) : LinkState :=
  { bandwidth_Bpns := bw_GBps_to_Bpns bandwidth
    latency := latency
    pending_chunks := []
    busy := false }

/-- `Link::serialization_delay(chunk_size)`: `chunk_size / bandwidth_Bpns`,
cast to the integer `EventTime` type (truncation of a non-negative value). -/
def serialization_delay (l : LinkState) (chunk_size : Nat) : EventTime :=
  (⌊(chunk_size : ℚ) / l.bandwidth_Bpns⌋).toNat

/-- `Link::communication_delay(chunk_size)`: `latency + chunk_size / bandwidth_Bpns`,
cast to `EventTime`. -/
def communication_delay (l : LinkState) (chunk_size : Nat) : EventTime :=
  (⌊(l.latency : ℚ) + (chunk_size : ℚ) / l.bandwidth_Bpns⌋).toNat

/-- `Link::schedule_chunk_transmission(chunk)`: sets the link busy and schedules
two events — the chunk-arrival event at `current_time + communication_delay` and
the link-free event at `current_time + serialization_delay`. -/
def schedule_chunk_transmission (l : LinkState) (lid : LinkId) (now : EventTime)
    (c : Chunk) : LinkState × List (EventTime × SimEvent) :=
  ({ l with busy := true },
   [(now + communication_delay l c.size, SimEvent.chunkArrival c),
    (now + serialization_delay l c.size, SimEvent.linkBecomeFree lid)])

/-- `Link::send(chunk)`: if the link is busy, append the chunk to the pending
queue and schedule nothing; otherwise service it immediately via
`schedule_chunk_transmission`. -/
def linkSend (l : LinkState) (lid : LinkId) (now : EventTime) (c : Chunk) :
    LinkState × List (EventTime × SimEvent) :=
  if l.busy then
    ({ l with pending_chunks := l.pending_chunks ++ [c] }, [])
  else
    schedule_chunk_transmission l lid now c

/-- `Link::process_pending_transmission` with the default FIFO discipline
(`random_queue_enabled = false`): dequeue the front pending chunk and service it. -/
def process_pending_transmission (l : LinkState) (lid : LinkId) (now : EventTime) :
    LinkState × List (EventTime × SimEvent) :=
  match l.pending_chunks with
  | [] => (l, [])
  | c :: rest => schedule_chunk_transmission { l with pending_chunks := rest } lid now c

/-! ## `congestion_aware/multi-dim-topology/MultiDimTopology.cpp`

Address translation and its inverse.  `npus_count_per_dim` is the list
`[n₀, …, n_{d-1}]`; `npus_count = ∏ nᵢ`. -/

/-- The loop body of `MultiDimTopology::translate_address`, processing dimensions
from the highest (`dims_count - 1`) down to `0`; it receives the dimension sizes
in that (reversed) order together with the running `denominator` and `leftover`,
and returns the digits in processing order (highest dimension first).
Each step does `denominator /= n[dim]; quotient = leftover / denominator;
leftover %= denominator`. -/
def translateLoop : List Nat → Nat → Nat → List Nat
  | [], _, _ => []
  | n :: rest, denominator, leftover =>
      let denom' := denominator / n
      (leftover / denom') :: translateLoop rest denom' (leftover % denom')

/-- `MultiDimTopology::translate_address(npu_id)`: decompose a global device id
into the mixed-radix address `[a₀, …, a_{d-1}]` (dimension 0 fastest-varying).
The source fills the address array from dimension `dims_count - 1` down to `0`;
here the digits are produced in that processing order and reversed into
dimension order. -/
def translate_address (npus_count_per_dim : List Nat) (npu_id : Nat) : List Nat :=
  (translateLoop npus_count_per_dim.reverse npus_count_per_dim.prod npu_id).reverse

/-- The `address_to_global` lambda inside `MultiDimTopology::route`:
`global_id = 0; for d = dims_count-1 downto 0: global_id = global_id * n[d] + a[d]`.
The fold runs over the (size, digit) pairs from the highest dimension down. -/
def address_to_global (npus_count_per_dim address : List Nat) : Nat :=
  ((npus_count_per_dim.zip address).reverse).foldl (fun g p => g * p.1 + p.2) 0

/-- The specification's decomposition formula, written exactly as in the spec:
`global_id = Σ aᵢ · ∏_{j<i} nⱼ`. -/
def specMixedRadixSum (npus_count_per_dim address : List Nat) : Nat :=
  ∑ i ∈ Finset.range address.length,
    address.getD i 0 * (npus_count_per_dim.take i).prod

/-! ## `ExpanderGraph` (congestion-aware translation units)

The graph lives in `adjacency_list`; device ids are `0 … n-1` where `n` is the
number of rows the constructor initialises.  We represent `adjacency_list` as a
total function `Nat → List Nat` (the constructor initialises every id with an
empty vector, so `.at()` lookups are total). -/

abbrev Adjacency := Nat → List Nat

/-- Association-list lookup, standing for `std::map::find` / `.at`. -/
def alistFind {α β : Type} [DecidableEq α] : List (α × β) → α → Option β
  | [], _ => none
  | (k, v) :: rest, k' => if k' = k then some v else alistFind rest k'

/-- One pass of the inner neighbor loop of the BFS in `ExpanderGraph::route`
(shortest-path variant): for each neighbor of `current`, if unvisited, mark it
visited, record its parent, enqueue it, and if it is `dest` stop the whole
search (`found = true` breaks out).  Returns the updated
(visited, queue, parent) state and the `found` flag. -/
def bfsVisitNeighbors (dest current : Nat) :
    List Nat → List Nat → List Nat → List (Nat × Nat) →
    List Nat × List Nat × List (Nat × Nat) × Bool
  | [], visited, queue, parent => (visited, queue, parent, false)
  | nb :: rest, visited, queue, parent =>
      if nb ∈ visited then
        bfsVisitNeighbors dest current rest visited queue parent
      else
        let visited' := nb :: visited
        let parent' := (nb, current) :: parent
        let queue' := queue ++ [nb]
        if nb = dest then (visited', queue', parent', true)
        else bfsVisitNeighbors dest current rest visited' queue' parent'

/-- The outer `while (!queue.empty() && !found)` loop of the BFS in
`ExpanderGraph::route`: pop the queue front and process its neighbors.
`fuel` dominates the number of iterations (each node is enqueued at most once,
so `n + 1` suffices when every node id is `< n`). -/
def bfsLoop (adj : Adjacency) (dest : Nat) :
    Nat → List Nat → List Nat → List (Nat × Nat) → List (Nat × Nat) × Bool
  | 0, _, _, parent => (parent, false)
  | _ + 1, [], _, parent => (parent, false)
  | fuel + 1, current :: queueRest, visited, parent =>
      let r := bfsVisitNeighbors dest current (adj current) visited queueRest parent
      if r.2.2.2 then (r.2.2.1, true)
      else bfsLoop adj dest fuel r.2.1 r.1 r.2.2.1

/-- Path reconstruction in `ExpanderGraph::route`:
`while (current != src) { path.push_back(current); current = parent[current]; }`,
followed by `path.push_back(src)`.  Produces the path in reverse order
(destination first), as the source does before its final `std::reverse`.
`fuel` dominates the parent-chain length. -/
def rebuildPath (parent : List (Nat × Nat)) (src : Nat) :
    Nat → Nat → List Nat
  | 0, _ => []
  | fuel + 1, current =>
      if current = src then [src]
      else current :: rebuildPath parent src fuel ((alistFind parent current).getD current)

/-- `ExpanderGraph::route` (ShortestPath variant, cache-miss path): BFS from
`src`, reconstruct the parent chain if `dest` was found, else return the empty
route.  `n` is the device count (fuel bound). -/
def route_shortest_path (n : Nat) (adj : Adjacency) (src dest : Nat) : List Nat :=
  let r := bfsLoop adj dest (n + 1) [src] [src] [(src, src)]
  if r.2 then (rebuildPath r.1 src (n + 1) dest).reverse else []

/-- `ExpanderGraph::route` with its `route_cache` (`src/unnamed/part_003`):
a cache hit returns the stored device-id sequence unchanged; a miss computes the
BFS route, stores it (also when empty) and returns it. -/
def routeCached (n : Nat) (adj : Adjacency)
    (cache : List ((Nat × Nat) × List Nat)) (src dest : Nat) :
    List Nat × List ((Nat × Nat) × List Nat) :=
  match alistFind cache (src, dest) with
  | some path => (path, cache)
  | none =>
      let path := route_shortest_path n adj src dest
      (path, ((src, dest), path) :: cache)

/-! ### `ExpanderGraph::get_distance` — Dijkstra with unit weights

`dist` is a vector of size `n` initialised to `UINT32_MAX`; we model the
sentinel as `none`.  The `std::priority_queue` with `std::greater` pops the
lexicographically least `(distance, node)` pair; we model it as a list from
which `popMinPair` removes the least element. -/

/-- Remove the lexicographically least `(d, u)` pair from the queue
(the element `std::priority_queue<…, std::greater<…>>::top` returns). -/
def popMinPair : List (Nat × Nat) → Option ((Nat × Nat) × List (Nat × Nat))
  | [] => none
  | p :: rest =>
      match popMinPair rest with
      | none => some (p, [])
      | some (q, rest') =>
          if p.1 < q.1 ∨ (p.1 = q.1 ∧ p.2 ≤ q.2) then some (p, rest)
          else some (q, p :: rest')

/-- The neighbor-relaxation loop of the Dijkstra in `ExpanderGraph::get_distance`:
`new_dist = dist[u] + 1; if (new_dist < dist[neighbor]) { dist[neighbor] = new_dist;
pq.push({new_dist, neighbor}); }` (a `none` entry is `UINT32_MAX`, larger than any
reachable distance). -/
def dijkstraRelax (du : Nat) :
    List Nat → List (Option Nat) → List (Nat × Nat) →
    List (Option Nat) × List (Nat × Nat)
  | [], dist, pq => (dist, pq)
  | nb :: rest, dist, pq =>
      let nd := du + 1
      let better := match dist.getD nb none with
        | none => true
        | some dnb => nd < dnb
      if better then
        dijkstraRelax du rest (dist.set nb (some nd)) (pq ++ [(nd, nb)])
      else
        dijkstraRelax du rest dist pq

/-- The main `while (!pq.empty())` loop of `ExpanderGraph::get_distance`:
pop the least `(d, u)`; return `d` if `u` is the destination; skip stale entries
(`d > dist[u]`); otherwise relax all neighbors.  When the queue empties the
source falls through to `dist[dest]`. -/
def dijkstraLoop (adj : Adjacency) (dest : Nat) :
    Nat → List (Nat × Nat) → List (Option Nat) → Option Nat
  | 0, _, dist => dist.getD dest none
  | fuel + 1, pq, dist =>
      match popMinPair pq with
      | none => dist.getD dest none
      | some ((d, u), pqRest) =>
          if u = dest then some d
          else
            let stale : Bool := match dist.getD u none with
              | some du => d > du
              | none => false
            if stale then dijkstraLoop adj dest fuel pqRest dist
            else
              -- here `dist[u] = d` (entries only decrease and stale pops are skipped);
              -- the source reads `dist[u]`, whose value is `d`
              let r := dijkstraRelax ((dist.getD u none).getD d) (adj u) dist pqRest
              dijkstraLoop adj dest fuel r.2 r.1

/-- `ExpanderGraph::get_distance(src, dest)` (cache-miss path): `0` for
`src = dest`, else unit-weight Dijkstra; `none` models the `UINT32_MAX`
"unreachable" outcome (on which the source's assertions fire).
Each relaxation strictly decreases a `dist` entry, whose values stay below
`n + 1`, so `n * n + n + 1` units of fuel dominate the pop count. -/
def get_distance (n : Nat) (adj : Adjacency) (src dest : Nat) : Option Nat :=
  if src = dest then some 0
  else
    dijkstraLoop adj dest (n * n + n + 1) [(0, src)]
      ((List.replicate n (none : Option Nat)).set src (some 0))

/-- `ExpanderGraph::compute_hops_count(src, dest)`: delegates to `get_distance`
(asserting `src ≠ dest` and the range bounds). -/
def compute_hops_count (n : Nat) (adj : Adjacency) (src dest : Nat) : Option Nat :=
  get_distance n adj src dest

/-! ### `ExpanderGraph::route_random_topk` (`src/unnamed/part_002`)

The helper `bfs_path` lambda searches with banned nodes and banned (undirected)
edges; the `k_shortest_paths` lambda is the Yen-style spur loop; the caller
caches the path list per `(src, dest)` and samples an index.  The `mt19937`
draw of `std::uniform_int_distribution(a, b)` is modelled by an oracle
`choice : Nat` mapped into the range as `a + choice % (b - a + 1)`. -/

/-- `normalize_edge` in `route_random_topk`: order the endpoint pair. -/
def normalize_edge (a b : Nat) : Nat × Nat :=
  if a < b then (a, b) else (b, a)

/-- The neighbor loop of the `bfs_path` lambda: skip banned nodes, skip banned
edges, and relax unvisited neighbors (`dist[nb] == -1` is modelled as `none`). -/
def bfsPathVisit (bannedN : List Nat) (bannedE : List (Nat × Nat))
    (current du : Nat) :
    List Nat → List (Option Nat) → List (Option Nat) → List Nat →
    List (Option Nat) × List (Option Nat) × List Nat
  | [], dist, parent, queue => (dist, parent, queue)
  | nb :: rest, dist, parent, queue =>
      if nb ∈ bannedN then bfsPathVisit bannedN bannedE current du rest dist parent queue
      else if normalize_edge current nb ∈ bannedE then
        bfsPathVisit bannedN bannedE current du rest dist parent queue
      else if (dist.getD nb none).isSome then
        bfsPathVisit bannedN bannedE current du rest dist parent queue
      else
        bfsPathVisit bannedN bannedE current du rest
          (dist.set nb (some (du + 1))) (parent.set nb (some current)) (queue ++ [nb])

/-- The `while (!q.empty())` loop of the `bfs_path` lambda; it stops when the
popped node is the goal. -/
def bfsPathLoop (adj : Adjacency) (goal : Nat) (bannedN : List Nat)
    (bannedE : List (Nat × Nat)) :
    Nat → List Nat → List (Option Nat) → List (Option Nat) →
    List (Option Nat) × List (Option Nat)
  | 0, _, dist, parent => (dist, parent)
  | _ + 1, [], dist, parent => (dist, parent)
  | fuel + 1, current :: queueRest, dist, parent =>
      if current = goal then (dist, parent)
      else
        let du := (dist.getD current none).getD 0
        let r := bfsPathVisit bannedN bannedE current du (adj current) dist parent queueRest
        bfsPathLoop adj goal bannedN bannedE fuel r.2.2 r.1 r.2.1

/-- Path reconstruction of the `bfs_path` lambda over its parent vector
(destination first; the caller reverses). -/
def rebuildPathVec (parent : List (Option Nat)) (start : Nat) :
    Nat → Nat → List Nat
  | 0, _ => []
  | fuel + 1, current =>
      if current = start then [start]
      else current :: rebuildPathVec parent start fuel ((parent.getD current none).getD current)

/-- The `bfs_path` lambda of `route_random_topk`: BFS from `start` to `goal`
avoiding `banned_nodes` and `banned_edges`; empty result when `start` is banned
or `goal` stays unreached. -/
def bfs_path (n : Nat) (adj : Adjacency) (start goal : Nat)
    (bannedN : List Nat) (bannedE : List (Nat × Nat)) : List Nat :=
  if start ∈ bannedN then []
  else
    let dist0 := (List.replicate n (none : Option Nat)).set start (some 0)
    let parent0 := (List.replicate n (none : Option Nat)).set start (some start)
    let r := bfsPathLoop adj goal bannedN bannedE (n + 1) [start] dist0 parent0
    if (r.1.getD goal none).isSome then
      (rebuildPathVec r.2 start (n + 1) goal).reverse
    else []

/-- The banned-edge set of one spur iteration: for each accepted path `p` with
`p.size() > i` whose first `i + 1` nodes equal the root path, ban the edge
`(p[i], p[i+1])` (normalised). -/
def spurBannedEdges (rootPath : List Nat) (i : Nat) :
    List (List Nat) → List (Nat × Nat)
  | [] => []
  | p :: rest =>
      if i < p.length ∧ p.take (i + 1) = rootPath then
        normalize_edge (p.getD i 0) (p.getD (i + 1) 0) :: spurBannedEdges rootPath i rest
      else spurBannedEdges rootPath i rest

/-- One spur-candidate generation pass of `k_shortest_paths` for the previous
accepted path `prev`: iterate `i` with `i + 1 < prev.size()`, ban the root's
intermediate nodes and the prefix-reproducing edges, search a spur path and
collect new non-duplicate candidates (appended in discovery order). -/
def spurCandidates (n : Nat) (adj : Adjacency) (goal : Nat)
    (accepted : List (List Nat)) (prev : List Nat) :
    List Nat → List (List Nat) → List (List Nat)
  | [], candidates => candidates
  | i :: rest, candidates =>
      let spurNode := prev.getD i 0
      let rootPath := prev.take (i + 1)
      let bannedN := rootPath.dropLast
      let bannedE := spurBannedEdges rootPath i accepted
      let spurPath := bfs_path n adj spurNode goal bannedN bannedE
      if spurPath = [] then spurCandidates n adj goal accepted prev rest candidates
      else
        let totalPath := rootPath ++ spurPath.drop 1
        if totalPath ∈ accepted ∨ totalPath ∈ candidates then
          spurCandidates n adj goal accepted prev rest candidates
        else
          spurCandidates n adj goal accepted prev rest (candidates ++ [totalPath])

/-- Index of the first length-minimal element (`std::min_element` keeps the
first of the minima). -/
def minLenIdx (l : List (List Nat)) : Nat :=
  (l.foldl
    (fun (acc : Nat × Nat × Nat) p =>
      let best := acc.1
      let bestLen := acc.2.1
      let idx := acc.2.2
      if p.length < bestLen then (idx, p.length, idx + 1)
      else (best, bestLen, idx + 1))
    (0, (l.headD []).length + 1, 0)).1

/-- The outer `for (k = 1; k < k_max; ++k)` loop of `k_shortest_paths`: generate
spur candidates from the last accepted path, stop when none exist, otherwise
accept the shortest candidate (first of the minima) and remove it from the
candidate pool. -/
def kspOuter (n : Nat) (adj : Adjacency) (goal : Nat) :
    Nat → List (List Nat) → List (List Nat) → List (List Nat)
  | 0, accepted, _ => accepted
  | fuel + 1, accepted, candidates =>
      let prev := accepted.getLastD []
      let candidates' :=
        spurCandidates n adj goal accepted prev (List.range (prev.length - 1)) candidates
      if candidates' = [] then accepted
      else
        let idx := minLenIdx candidates'
        kspOuter n adj goal fuel (accepted ++ [candidates'.getD idx []])
          (candidates'.eraseIdx idx)

/-- The `k_shortest_paths` lambda of `route_random_topk`: BFS gives the first
path; the Yen-style loop accepts up to `k_max - 1` more. -/
def k_shortest_paths (n : Nat) (adj : Adjacency) (start goal : Nat)
    (k_max : Nat) : List (List Nat) :=
  let first := bfs_path n adj start goal [] []
  if first = [] then []
  else kspOuter n adj goal (k_max - 1) [first] []

/-- `k_max_paths` in `route_random_topk`. -/
def k_max_paths : Nat := 16

/-- `ExpanderGraph::route_random_topk(src, dest)` with its `topk_route_cache`.
A cache hit samples an index in `[start, size-1]` with
`start = (size > 4 ? 4 : 0)`; a miss computes the `k = 16` shortest paths
(`none` models the fatal `exit(-1)` when no route exists), caches them, and
samples the same way (the dead `start > end` reset of the source is kept).
`choice` is the oracle for the uniform draw. -/
def route_random_topk (n : Nat) (adj : Adjacency)
    (cache : List ((Nat × Nat) × List (List Nat))) (src dest : Nat)
    (choice : Nat) :
    Option (List Nat × List ((Nat × Nat) × List (List Nat))) :=
  match alistFind cache (src, dest) with
  | some cached_paths =>
      let start_index := if cached_paths.length > 4 then 4 else 0
      let idx := start_index + choice % (cached_paths.length - start_index)
      some (cached_paths.getD idx [], cache)
  | none =>
      let paths := k_shortest_paths n adj src dest k_max_paths
      if paths = [] then none
      else
        let start0 := if paths.length > 4 then 4 else 0
        let end_index := paths.length - 1
        let start_index := if start0 > end_index then 0 else start0
        let idx := start_index + choice % (end_index - start_index + 1)
        some (paths.getD idx [], ((src, dest), paths) :: cache)

/-! ## `congestion_aware/basic-topology/FatTree.cpp`

Device-id layout: `[0, npus)` NPUs, then `L = k²/2` leaves, `S = k²/4` spines,
`C = (k/2)²` cores.  `Topology::connect(a, b, bw, lat, bidirectional)` is not
under `src/`; modelled from the spec (§3 Link): a bidirectional connect creates
the two directed links `a→b` and `b→a`. -/

/-- The NPU-distribution loop of the `FatTree` constructor: leaf after leaf
takes `min(k/2, remaining)` NPUs; the resulting list maps each NPU id (by
position) to its leaf index (`npu_to_leaf`). -/
def npuToLeafList (half : Nat) : Nat → Nat → Nat → List Nat
  | 0, _, _ => []
  | _ + 1, _, 0 => []
  | leavesLeft + 1, leaf, remaining =>
      let takeCount := min half remaining
      List.replicate takeCount leaf ++
        npuToLeafList half leavesLeft (leaf + 1) (remaining - takeCount)

/-- `npu_to_leaf` of a `FatTree(npus_count, k)`. -/
def npu_to_leaf (npus_count k : Nat) : List Nat :=
  npuToLeafList (k / 2) (k * k / 2) 0 npus_count

/-- All directed links the `FatTree` constructor creates
(each `Topology::connect(…, true)` yields both directions):
NPU↔leaf, leaf↔spine within each pod (the source iterates `pod < k`),
and spine↔core with `spine_index = pod*(k/2)+i`, `core_index = i*(k/2)+j`. -/
def fatTreeLinks (npus_count k : Nat) : List (Nat × Nat) :=
  let leafOff := npus_count
  let spineOff := npus_count + k * k / 2
  let coreOff := npus_count + k * k / 2 + k * k / 4
  let npuLeaf :=
    ((npu_to_leaf npus_count k).enum.map fun p => (p.1, leafOff + p.2))
  let leafSpine :=
    (List.range k).flatMap fun pod =>
      (List.range (k / 2)).flatMap fun i =>
        (List.range (k / 2)).map fun j =>
          (leafOff + pod * (k / 2) + i, spineOff + pod * (k / 2) + j)
  let spineCore :=
    (List.range (k / 2)).flatMap fun i =>
      (List.range (k / 2)).flatMap fun j =>
        (List.range k).map fun pod =>
          (spineOff + pod * (k / 2) + i, coreOff + i * (k / 2) + j)
  let forward := npuLeaf ++ leafSpine ++ spineCore
  forward ++ forward.map (fun p => (p.2, p.1))

/-- `FatTree::route(src, dest)` under the `Deterministic` routing algorithm
(the `Random` branches draw from an `mt19937` and are not modelled):
same leaf → 2-hop route via the shared leaf; same pod → 4-hop route via
`spine_in_pod = src_leaf_in_pod`; different pods → 6-hop route via
`src_spine_in_pod = src_leaf_in_pod`, `dest_spine_in_pod = dest_leaf_in_pod`,
`core_index = core_row * (k/2) + core_col` with `core_row = src_spine_in_pod`
and `core_col = dest_spine_in_pod`. -/
def fatTreeRoute (npus_count k : Nat) (src dest : Nat) : List Nat :=
  let leafOff := npus_count
  let spineOff := npus_count + k * k / 2
  let coreOff := npus_count + k * k / 2 + k * k / 4
  let toLeaf := npu_to_leaf npus_count k
  let srcLeaf := toLeaf.getD src 0
  let destLeaf := toLeaf.getD dest 0
  if srcLeaf = destLeaf then
    [src, leafOff + srcLeaf, dest]
  else
    let srcPod := srcLeaf / (k / 2)
    let destPod := destLeaf / (k / 2)
    let srcLeafInPod := srcLeaf % (k / 2)
    let destLeafInPod := destLeaf % (k / 2)
    if srcPod = destPod then
      let spineInPod := srcLeafInPod
      let spineIndex := srcPod * (k / 2) + spineInPod
      [src, leafOff + srcLeaf, spineOff + spineIndex, leafOff + destLeaf, dest]
    else
      let srcSpineInPod := srcLeafInPod
      let destSpineInPod := destLeafInPod
      let srcSpineIndex := srcPod * (k / 2) + srcSpineInPod
      let destSpineIndex := destPod * (k / 2) + destSpineInPod
      let coreRow := srcSpineInPod
      let coreCol := destSpineInPod
      let coreIndex := coreRow * (k / 2) + coreCol
      [src, leafOff + srcLeaf, spineOff + srcSpineIndex, coreOff + coreIndex,
       spineOff + destSpineIndex, leafOff + destLeaf, dest]

/-! ## `EpExpanderTopology` (`src/unnamed/part_001`) -/

/-- `RouteInfo`: one pre-routed option — path, hop count and sampling weight. -/
structure RouteInfo where
  path : List Nat
  hops : Nat
  weight : ℚ
deriving Repr, DecidableEq

/-- The cumulative scan of `EpExpanderTopology::select_route`: walk the options
accumulating their weights and return the first one whose cumulative weight
exceeds the draw `r`, falling back to the last option. -/
def selectRouteScan (r : ℚ) : List RouteInfo → ℚ → RouteInfo → RouteInfo
  | [], _, lastInfo => lastInfo
  | info :: rest, cumulative, _ =>
      let cumulative' := cumulative + info.weight
      if r < cumulative' then info
      else selectRouteScan r rest cumulative' info

/-- `EpExpanderTopology::select_route(src, dest)` over the option list for the
pair; `r` is the oracle for the `uniform_real_distribution(0, 1)` draw.  A
single option is returned directly. -/
def select_route (options : List RouteInfo) (r : ℚ) : RouteInfo :=
  if options.length = 1 then options.headD ⟨[], 0, 0⟩
  else selectRouteScan r options 0 (options.getLastD ⟨[], 0, 0⟩)

/-- `EpExpanderTopology::route(src, dest)`: a self-send returns just the source
device; otherwise a weighted route option is selected and its path returned.
`routes` is the loaded `routes[src][dst]` table. -/
def epRoute (routes : Nat → Nat → List RouteInfo) (src dest : Nat) (r : ℚ) :
    List Nat :=
  if src = dest then [src]
  else (select_route (routes src dest) r).path

/-! ## `SwitchOrExpander` — per-device-MoE-mode variant (`src/unnamed/part_000`,
third translation unit)

`use_moe_routing` is the shared `DeviceId → bool` map.  `switch_topology` is a
`Switch(npus_count, …)`; `Switch.cpp` is not under `src/`, so its route is
modelled from the spec (§4.E.3): `route(i, j) = [i, switch, j]` with the switch
device at id `npus_count`.  The optional `expander_topology` is an
`ExpanderGraph` over its own adjacency; its `route`/`get_distance` are the
functions above (the `ShortestPath` default).  The source's assertions
(`src != dest`, equal-mode) are modelled as `Except` errors. -/

/-- Modelled from the spec: `Switch::route(i, j) = [i, switch, j]` with the
switch device at id `npus_count` (`Switch.cpp` is not under `src/`; spec §4.E.3). -/
def switchRoute (npus_count src dest : Nat) : List Nat :=
  [src, npus_count, dest]

/-- The per-device-MoE `SwitchOrExpander`: NPU count, the shared per-device
mode map, and the optional expander graph (device count and adjacency). -/
structure SwitchOrExpander where
  npus_count : Nat
  moe : Nat → Bool
  expander : Option (Nat × Adjacency)

/-- `SwitchOrExpander::route(src, dest)` (per-device variant): assert both
endpoints share a mode, then route through the expander exactly when the mode
is on and the expander exists, else through the switch. -/
def soeRoute (t : SwitchOrExpander) (src dest : Nat) : Except String (List Nat) :=
  if t.moe src ≠ t.moe dest then .error "mixed moe mode"
  else
    match t.expander, t.moe src with
    | some e, true => .ok (route_shortest_path e.1 e.2 src dest)
    | some _, false => .ok (switchRoute t.npus_count src dest)
    | none, _ => .ok (switchRoute t.npus_count src dest)

/-- `SwitchOrExpander::get_distance(src, dest)` (per-device variant): `0` for a
self-pair (checked before the mode assertion), then the expander's Dijkstra
distance in MoE mode (its unreachable assertion modelled as an error) or the
switch route's hop count. -/
def soeGetDistance (t : SwitchOrExpander) (src dest : Nat) : Except String Nat :=
  if src = dest then .ok 0
  else if t.moe src ≠ t.moe dest then .error "mixed moe mode"
  else
    match t.expander, t.moe src with
    | some e, true =>
        match get_distance e.1 e.2 src dest with
        | some d => .ok d
        | none => .error "unreachable"
    | some _, false => .ok ((switchRoute t.npus_count src dest).length - 1)
    | none, _ => .ok ((switchRoute t.npus_count src dest).length - 1)

/-- `SwitchOrExpander::compute_hops_count(src, dest)` (per-device variant):
asserts `src ≠ dest`, then the expander route's length minus one in MoE mode,
else the switch route's. -/
def soeComputeHops (t : SwitchOrExpander) (src dest : Nat) : Except String Nat :=
  if src = dest then .error "src = dest"
  else if t.moe src ≠ t.moe dest then .error "mixed moe mode"
  else
    match t.expander, t.moe src with
    | some e, true => .ok ((route_shortest_path e.1 e.2 src dest).length - 1)
    | some _, false => .ok ((switchRoute t.npus_count src dest).length - 1)
    | none, _ => .ok ((switchRoute t.npus_count src dest).length - 1)

/-! ## `ExpanderGraph` construction (`src/unnamed/part_002`)

The constructor reads a JSON graph description; the file's parsed contents are
the `EGFile` record.  `std::exit(-1)` is the `fatal` outcome; degree warnings
are collected and construction continues.  The adjacency under construction is
a vector of neighbor vectors of size `npus_count + npus_count/8` (the
constructor initialises that many rows).  The constructor's `assert` range
checks vanish in release builds and are not modelled. -/

/-- Parsed expander-graph JSON. -/
structure EGFile where
  node_count : Nat
  degree : Nat
  connected_graph_adjacency : List (List Nat)
  groupA : List Nat
  split_graph_adjacency : List (List Nat)
deriving Repr, DecidableEq

/-- `ExpanderGraph::connect(src, dest)`: reject self-loops and duplicate edges
(with an error log, continuing), else append each endpoint to the other's
neighbor vector. -/
def egConnect (adj : List (List Nat)) (src dest : Nat) : List (List Nat) :=
  if src = dest then adj
  else if dest ∈ adj.getD src [] then adj
  else
    let adj' := adj.set src (adj.getD src [] ++ [dest])
    adj'.set dest (adj'.getD dest [] ++ [src])

/-- The full-graph edge loop: for every row `node_id` of
`connected_graph_adjacency` and every neighbor, connect once per undirected
edge (`node_id < neighbor`). -/
def egBuildFull (adjacency : List (List Nat)) (adj0 : List (List Nat)) :
    List (List Nat) :=
  (adjacency.enum.foldl
    (fun adj row =>
      row.2.foldl
        (fun adj nb => if row.1 < nb then egConnect adj row.1 nb else adj)
        adj)
    adj0)

/-- The split-graph edge loop: only rows in group A participate; node ids map
to local NPU ids by their position in group A; edges stay within group A and
are connected once (`npu_id < neighbor_npu_id`). -/
def egBuildSplit (groupA : List Nat) (adjacency : List (List Nat))
    (adj0 : List (List Nat)) : List (List Nat) :=
  (adjacency.enum.foldl
    (fun adj row =>
      if row.1 ∈ groupA then
        let npu_id := groupA.indexOf row.1
        row.2.foldl
          (fun adj nb =>
            if nb ∈ groupA then
              let nnpu := groupA.indexOf nb
              if npu_id < nnpu then egConnect adj npu_id nnpu else adj
            else adj)
          adj
      else adj)
    adj0)

/-- The degree-verification loop: node ids `< npus_count` whose built degree
differs from the file's declared degree (each gets a warning; construction
continues). -/
def egDegreeWarnings (npus_count : Nat) (degree : Nat)
    (adj : List (List Nat)) : List Nat :=
  (List.range npus_count).filter fun i => (adj.getD i []).length ≠ degree

/-- Outcome of `ExpanderGraph` construction: fatal abort (`std::exit(-1)`) or
the built adjacency with the list of degree-warned nodes. -/
inductive EGBuildOutcome where
  | fatal
  | ok (adj : List (List Nat)) (warnings : List Nat)
deriving Repr, DecidableEq

/-- The `ExpanderGraph` constructor (`src/unnamed/part_002`, graph-building
part): decide split mode from the declared node count, in full mode abort when
the node count does not match `npus_count` (resp. `npus_count + npus_count/8`
with resiliency spares), build the adjacency and collect degree warnings. -/
def expanderGraphBuild (npus_count : Nat) (use_resiliency : Bool)
    (f : EGFile) : EGBuildOutcome :=
  let rows := npus_count + npus_count / 8
  let adj0 : List (List Nat) := List.replicate rows []
  let use_split :=
    if use_resiliency then (npus_count + npus_count / 8) * 2 = f.node_count
    else npus_count * 2 = f.node_count
  if use_split then
    let adj := egBuildSplit f.groupA f.split_graph_adjacency adj0
    .ok adj (egDegreeWarnings npus_count f.degree adj)
  else if ¬use_resiliency ∧ npus_count ≠ f.node_count then .fatal
  else if use_resiliency ∧ f.node_count ≠ npus_count + npus_count / 8 then .fatal
  else
    let adj := egBuildFull f.connected_graph_adjacency adj0
    .ok adj (egDegreeWarnings npus_count f.degree adj)

/-! ## Event-driven transport simulation

`EventQueue.cpp`, `Device.cpp` and `Chunk.cpp` are not under `src/`; their
behaviour is modelled from the spec (§4.A, §4.B, §4.D, §5): a monotone queue
with FIFO tie-breaking on equal times, `Device::send` forwarding along the
route (advancing the cursor before handing the chunk to the outgoing link),
and links behaving exactly as `Link.cpp` above.  All links of a scenario share
one (bandwidth, latency) pair; link state is materialised lazily per directed
device pair. -/

/-- Simulation state: current time, the pending event list in insertion order,
the per-link states, the shared link parameters, and the completion times of
chunks whose callback fired. -/
structure SimState where
  current_time : EventTime
  events : List (EventTime × SimEvent)
  links : List (LinkId × LinkState)
  bw : ℚ
  lat : Nat
  completions : List EventTime
deriving Repr, DecidableEq

/-- Look a link up, materialising a fresh free link on first use. -/
def getLink (st : SimState) (lid : LinkId) : LinkState :=
  (alistFind st.links lid).getD (mkLink st.bw st.lat)

/-- Store a link's new state. -/
def setLink (st : SimState) (lid : LinkId) (l : LinkState) : SimState :=
  { st with links := (lid, l) :: st.links }

/-- Append freshly scheduled events (the queue keeps insertion order;
`proceed` pops the earliest time, first-inserted among ties). -/
def scheduleAll (st : SimState) (evs : List (EventTime × SimEvent)) : SimState :=
  { st with events := st.events ++ evs }

/-- Modelled from the spec: `Device::send(chunk)` (§4.B) — when the cursor is at
the route's last position, invoke the completion callback (record the current
time); otherwise advance the cursor and hand the chunk to the outgoing link
toward the next device. -/
def deviceSend (st : SimState) (c : Chunk) : SimState :=
  if c.cursor = c.route.length - 1 then
    { st with completions := st.completions ++ [st.current_time] }
  else
    let u := c.route.getD c.cursor 0
    let v := c.route.getD (c.cursor + 1) 0
    let c' := { c with cursor := c.cursor + 1 }
    let r := linkSend (getLink st (u, v)) (u, v) st.current_time c'
    scheduleAll (setLink st (u, v) r.1) r.2

/-- Fire one event: `Chunk::chunk_arrived_next_device` delegates to
`Device::send`; `Link::link_become_free` frees the link and services one
pending chunk (FIFO) if any. -/
def handleEvent (st : SimState) : SimEvent → SimState
  | SimEvent.chunkArrival c => deviceSend st c
  | SimEvent.linkBecomeFree lid =>
      let l := getLink st lid
      let lFree := { l with busy := false }
      if lFree.pending_chunks = [] then setLink st lid lFree
      else
        let r := process_pending_transmission lFree lid st.current_time
        scheduleAll (setLink st lid r.1) r.2

/-- Pop the earliest event (first-inserted among equal times), as the spec's
min-heap with FIFO tie-breaking (§4.A). -/
def popEarliest : List (EventTime × SimEvent) →
    Option ((EventTime × SimEvent) × List (EventTime × SimEvent))
  | [] => none
  | e :: rest =>
      match popEarliest rest with
      | none => some (e, [])
      | some (e', rest') =>
          if e.1 ≤ e'.1 then some (e, rest) else some (e', e :: rest')

/-- `EventQueue::proceed()`: pop and fire the earliest event, advancing
`current_time` to its time. -/
def proceed (st : SimState) : SimState :=
  match popEarliest st.events with
  | none => st
  | some (e, rest) => handleEvent { st with current_time := e.1, events := rest } e.2

/-- `while (!event_queue->finished()) { event_queue->proceed(); }` with fuel. -/
def runSim : Nat → SimState → SimState
  | 0, st => st
  | fuel + 1, st =>
      if st.events = [] then st else runSim fuel (proceed st)

/-- Modelled from the spec: `Ring::route(i, j)` (§4.E.1; `Ring.cpp` is not under
`src/`) — follow the shorter direction around the cycle, clockwise (increasing
ids mod `n`) on ties. -/
def ringRoute (n src dest : Nat) : List Nat :=
  let fwd := (dest + n - src) % n
  if fwd ≤ n - fwd then
    (List.range (fwd + 1)).map fun s => (src + s) % n
  else
    (List.range (n - fwd + 1)).map fun s => (src + n - s % n) % n

/-! ### The Ring(8) end-to-end scenario (spec §8 scenario 1, `part_004` `Ring` test)

A single 1,048,576-byte chunk along `route(1, 4)` on Ring(8) with 50 GB/s links
of 500 ns latency, run to completion. -/

/-- The scenario's chunk: 1 MB over `route(1,4) = [1,2,3,4]`, cursor at the
source. -/
def ringChunk : Chunk := { size := 1048576, route := ringRoute 8 1 4, cursor := 0 }

/-- Initial state after `topology->send(chunk)` (the source device's
`Device::send` fires synchronously at `t = 0`). -/
def ringSimStart : SimState :=
  deviceSend
    { current_time := 0, events := [], links := [], bw := 50, lat := 500,
      completions := [] }
    ringChunk

/-- The scenario run to completion (32 units of fuel dominate the six scheduled
events). -/
def ringSimFinal : SimState := runSim 32 ringSimStart

/-! ## Concrete test fixtures -/

/-- The 5-cycle expander adjacency (edges 0-1, 1-2, 2-3, 3-4, 4-0), in the
neighbor-list order `ExpanderGraph::connect` produces when the constructor
handles the undirected edges `(0,1), (0,4), (1,2), (2,3), (3,4)` row by row. -/
def cycle5Adj : Adjacency := fun u => [[1, 4], [0, 2], [1, 3], [2, 4], [3, 0]].getD u []

/-- Replay a sequence of `ExpanderGraph::route` queries against the route cache
(used to speak about "later calls" in the memoization claim). -/
def runQueries (n : Nat) (adj : Adjacency)
    (cache : List ((Nat × Nat) × List Nat)) (qs : List (Nat × Nat)) :
    List ((Nat × Nat) × List Nat) :=
  qs.foldl (fun c q => (routeCached n adj c q.1 q.2).2) cache

/-! ## Graph-theoretic specification layer

Used to state and prove what the BFS of `route_shortest_path` and the Dijkstra
of `get_distance` compute: walks in the adjacency structure and shortest
distances. -/

/-- A walk of `k` edges from `s` to `d` along the adjacency lists (edges are
consumed at the far end, matching how the searches grow paths). -/
inductive Walk (adj : Adjacency) (s : Nat) : Nat → Nat → Prop where
  | nil : Walk adj s s 0
  | snoc {u v k} : Walk adj s u k → v ∈ adj u → Walk adj s v (k + 1)

/-- `d` is reachable from `s`. -/
def Reach (adj : Adjacency) (s d : Nat) : Prop := ∃ k, Walk adj s d k

/-- `k` is the shortest-walk distance from `s` to `d`. -/
def IsDist (adj : Adjacency) (s d k : Nat) : Prop :=
  Walk adj s d k ∧ ∀ j, Walk adj s d j → k ≤ j

/-- A parent chain of length `k` from `x` back to the BFS source `s`, staying
inside the visited set `vis` (so that it is unaffected by later insertions of
unvisited keys into the parent map). -/
def ChainIn (parent : List (Nat × Nat)) (vis : List Nat) (s : Nat) :
    Nat → Nat → Prop
  | 0, x => x = s
  | k + 1, x =>
      x ≠ s ∧ x ∈ vis ∧
        ∃ y, alistFind parent x = some y ∧ ChainIn parent vis s k y

/-- The BFS loop invariant over the visited set and parent map while
processing frontier level `ℓ`. -/
structure BfsInv (n : Nat) (adj : Adjacency) (s dest ℓ : Nat)
    (visited : List Nat) (parent : List (Nat × Nat)) : Prop where
  bounded : ∀ x ∈ visited, x < n
  nodup : visited.Nodup
  src_mem : s ∈ visited
  dest_not : dest ∉ visited
  complete : ∀ x k, IsDist adj s x k → k ≤ ℓ → x ∈ visited
  chains : ∀ x ∈ visited, ∃ k, IsDist adj s x k ∧ k + 1 ≤ visited.length ∧
      ChainIn parent visited s k x

/-- What one pass of the BFS neighbor loop guarantees, relating the state
before (`visited`, `queue`, `parent`) to the result `r = (visited', queue',
parent', found)`. -/
structure BfsVisitOut (n : Nat) (adj : Adjacency) (s dest ℓ : Nat)
    (nbs visited queue : List Nat) (parent : List (Nat × Nat))
    (r : List Nat × List Nat × List (Nat × Nat) × Bool) : Prop where
  mono : ∀ x ∈ visited, x ∈ r.1
  delta : ∃ Δ, r.2.1 = queue ++ Δ ∧
      (∀ x ∈ Δ, IsDist adj s x (ℓ + 1) ∧ x ∉ visited) ∧
      (∀ x ∈ r.1, x ∈ visited ∨ x ∈ Δ) ∧ (∀ x ∈ Δ, x ∈ r.1) ∧
      r.1.length = visited.length + Δ.length
  queue_mem : ∀ x ∈ r.2.1, x ∈ r.1
  queue_nodup : r.2.1.Nodup
  not_found : r.2.2.2 = false →
      BfsInv n adj s dest ℓ r.1 r.2.2.1 ∧ ∀ v ∈ nbs, v ∈ r.1
  found : r.2.2.2 = true →
      (∃ k, IsDist adj s dest k ∧ k + 1 ≤ r.1.length ∧
        ChainIn r.2.2.1 r.1 s k dest) ∧
      r.1.Nodup ∧ (∀ x ∈ r.1, x < n)

/-- Termination potential of one Dijkstra `dist` entry: an unlabeled node can
still be pushed up to `n + 1` times, a node labeled `k` at most `k` more
times (labels strictly decrease). -/
def dijRoom (n : Nat) (o : Option Nat) : Nat :=
  match o with
  | none => n + 1
  | some k => k

/-- Termination potential of the whole Dijkstra `dist` vector. -/
def dijPotential (n : Nat) (dist : List (Option Nat)) : Nat :=
  ∑ x ∈ Finset.range n, dijRoom n (dist.getD x none)

/-- What the Dijkstra neighbor-relaxation fold guarantees, relating the state
before (`dist`, `pq`) to the result `r = (dist', pq')`, with ghost finalized
set `S` and finalized node `u` at exact distance `du`. -/
structure DijRelaxOut (n : Nat) (adj : Adjacency) (s u du : Nat)
    (S : Nat → Prop) (nbs : List Nat) (dist : List (Option Nat))
    (pq : List (Nat × Nat)) (r : List (Option Nat) × List (Nat × Nat)) :
    Prop where
  len : r.1.length = n
  valid : ∀ x k, r.1.getD x none = some k → Walk adj s x k ∧ k ≤ n
  pq_valid : ∀ e ∈ r.2, Walk adj s e.2 e.1 ∧ e.2 < n ∧
      ∃ dv, r.1.getD e.2 none = some dv ∧ dv ≤ e.1
  sdist : ∀ w, S w → ∃ k, r.1.getD w none = some k ∧ IsDist adj s w k
  srelax : ∀ w, S w → ∀ v ∈ adj w, ∃ kv, r.1.getD v none = some kv ∧
      ∀ kw, IsDist adj s w kw → kv ≤ kw + 1
  coverage : ∀ x k, r.1.getD x none = some k → S x ∨ x = u ∨ (k, x) ∈ r.2
  src0 : r.1.getD s none = some 0
  nbs_relaxed : ∀ v ∈ nbs, ∃ kv, r.1.getD v none = some kv ∧ kv ≤ du + 1
  mono : ∀ x k, dist.getD x none = some k →
      ∃ k', r.1.getD x none = some k' ∧ k' ≤ k
  potential : r.2.length + dijPotential n r.1 ≤ pq.length + dijPotential n dist

/-! # Theorems -/

/-! ## Helper lemmas for the Ring(8) scenario -/

/-- On a 50 GB/s link, a 1,048,576-byte chunk serialises for
`⌊1048576 / 50⌋ = 20971` ns. -/
theorem serialization_delay_bw50 (l : LinkState) (h : l.bandwidth_Bpns = 50) :
    serialization_delay l 1048576 = 20971 := by
  simp [serialization_delay, h]
  norm_num
  rfl

/-- On a 50 GB/s, 500 ns link the communication delay of a 1,048,576-byte chunk
is `⌊500 + 1048576 / 50⌋ = 21471` ns. -/
theorem communication_delay_bw50_lat500 (l : LinkState) (h : l.bandwidth_Bpns = 50)
    (h2 : l.latency = 500) : communication_delay l 1048576 = 21471 := by
  simp [communication_delay, h, h2]
  norm_num
  rfl

/-- The fully evaluated Ring(8) scenario: queue drained, final time 64,413 ns,
one completion at 64,413 ns. -/
theorem ringSimFinal_eval :
    ringSimFinal.events = [] ∧ ringSimFinal.current_time = 64413 ∧
      ringSimFinal.completions = [64413] := by
  refine ⟨?_, ?_, ?_⟩ <;>
    simp [ringSimFinal, runSim, ringSimStart, deviceSend, ringChunk, ringRoute,
      proceed, popEarliest, handleEvent, getLink, setLink, scheduleAll, linkSend,
      schedule_chunk_transmission, process_pending_transmission, mkLink,
      bw_GBps_to_Bpns, alistFind, serialization_delay_bw50,
      communication_delay_bw50_lat500]

/-! ## C1 -/

/-- C1 (counterexample): on Ring(8) with 50 GB/s / 500 ns links, sending the
single 1,048,576-byte chunk along `route(1,4)` and draining the event queue
does NOT end at 60,093 ns.  With the source's decimal-GB identity conversion
(`bw_GBps_to_Bpns`), each hop takes `⌊500 + 1048576/50⌋ = 21471` ns, so the
run ends at `3 · 21471 = 64413` ns; the 60,093 ns figure corresponds to the
removed GiB-based conversion. -/
theorem C1_ring_end_time_not_60093 :
    ringSimFinal.events = [] ∧ ringSimFinal.current_time ≠ 60093 := by
  have h := ringSimFinal_eval
  exact ⟨h.1, by rw [h.2.1]; decide⟩

/-- C1 (amended): the same scenario ends with `current_time = 64413` ns (the
chunk's completion callback fires at that time and the queue is drained). -/
theorem C1_ring_end_time_64413 :
    ringSimFinal.events = [] ∧ ringSimFinal.current_time = 64413 ∧
      ringSimFinal.completions = [64413] :=
  ringSimFinal_eval

/-! ## C2 -/

/-- C2: `Link::send` on a free link flips it to busy and schedules exactly the
chunk-arrival event at `now + ⌊latency + size / B⌋` and the link-free event at
`now + ⌊size / B⌋`, where the converted bandwidth `bandwidth_Bpns` used in both
delays is numerically equal to the configured GB/s bandwidth `B`
(`bw_GBps_to_Bpns` is the identity); on a busy link the chunk is appended to
the pending queue and no event is scheduled.  (Delays are truncated to the
integer `EventTime` type exactly as the source's `static_cast`.) -/
theorem C2_link_send_events (B : ℚ) (lat : Nat) (pending : List Chunk)
    (busy : Bool) (lid : LinkId) (now : EventTime) (c : Chunk) (hB : 0 < B) :
    let l : LinkState :=
      { bandwidth_Bpns := bw_GBps_to_Bpns B, latency := lat,
        pending_chunks := pending, busy := busy }
    l.bandwidth_Bpns = B ∧
    (busy = false →
      linkSend l lid now c =
        ({ l with busy := true },
         [(now + (⌊(lat : ℚ) + (c.size : ℚ) / B⌋).toNat, SimEvent.chunkArrival c),
          (now + (⌊(c.size : ℚ) / B⌋).toNat, SimEvent.linkBecomeFree lid)])) ∧
    (busy = true →
      linkSend l lid now c = ({ l with pending_chunks := pending ++ [c] }, [])) := by
  refine ⟨rfl, ?_, ?_⟩ <;> intro h <;> subst h <;>
    simp [linkSend, schedule_chunk_transmission, communication_delay,
      serialization_delay, bw_GBps_to_Bpns]

/-- C2 witness: the free and busy cases at concrete inputs (50 GB/s, 500 ns,
a 1 MB chunk). -/
theorem C2_link_send_events_witness :
    (0 : ℚ) < 50 ∧
    (let l : LinkState :=
      { bandwidth_Bpns := bw_GBps_to_Bpns 50, latency := 500,
        pending_chunks := [], busy := false }
     l.bandwidth_Bpns = 50 ∧
     (false = false →
       linkSend l (1, 2) 7 ⟨1048576, [1, 2], 1⟩ =
         ({ l with busy := true },
          [(7 + (⌊(500 : ℚ) + (1048576 : ℚ) / 50⌋).toNat,
            SimEvent.chunkArrival ⟨1048576, [1, 2], 1⟩),
           (7 + (⌊(1048576 : ℚ) / 50⌋).toNat,
            SimEvent.linkBecomeFree (1, 2))])) ∧
     (false = true →
       linkSend l (1, 2) 7 ⟨1048576, [1, 2], 1⟩ =
         ({ l with pending_chunks := [] ++ [⟨1048576, [1, 2], 1⟩] }, []))) :=
  ⟨by norm_num,
   C2_link_send_events 50 500 [] false (1, 2) 7 ⟨1048576, [1, 2], 1⟩ (by norm_num)⟩

/-! ## C3 -/

/-- C3 (the code at the failing input): in `FatTree(npus_count = 16, k = 4)`
under deterministic routing, `route(0, 6)` is the 6-hop route
`[0, 16, 24, 29, 27, 19, 6]`, yet no link exists between its consecutive
devices 29 (the chosen core switch) and 27 (the destination-side spine):
the constructor wires spine position `i` to cores `i·(k/2)+j`, while the
route picks the core `src_spine_in_pod·(k/2)+dest_spine_in_pod`, which is not
connected to the destination spine whenever the two spine positions differ.
So the route violates the consecutive-connectivity invariant the claim states. -/
theorem C3_fattree_interpod_link_missing :
    fatTreeRoute 16 4 0 6 = [0, 16, 24, 29, 27, 19, 6] ∧
    (fatTreeRoute 16 4 0 6).headD 99 = 0 ∧
    (fatTreeRoute 16 4 0 6).getLastD 99 = 6 ∧
    (29, 27) ∉ fatTreeLinks 16 4 ∧ (27, 29) ∉ fatTreeLinks 16 4 := by
  decide

/-! ## C5 -/

/-- The BFS neighbor pass never "finds" a destination that is already visited,
and keeps it visited. -/
theorem bfsVisitNeighbors_visited_dest (dest current : Nat) :
    ∀ (nbs visited queue : List Nat) (parent : List (Nat × Nat)),
      dest ∈ visited →
      (bfsVisitNeighbors dest current nbs visited queue parent).2.2.2 = false ∧
      dest ∈ (bfsVisitNeighbors dest current nbs visited queue parent).1
  | [], visited, queue, parent, h => ⟨rfl, h⟩
  | nb :: rest, visited, queue, parent, h => by
      by_cases hv : nb ∈ visited
      · simpa [bfsVisitNeighbors, hv] using
          bfsVisitNeighbors_visited_dest dest current rest visited queue parent h
      · have hne : nb ≠ dest := fun he => hv (he ▸ h)
        simpa [bfsVisitNeighbors, hv, hne] using
          bfsVisitNeighbors_visited_dest dest current rest (nb :: visited)
            (queue ++ [nb]) ((nb, current) :: parent) (List.mem_cons_of_mem _ h)

/-- The BFS main loop never reports `found` when the destination starts out
visited. -/
theorem bfsLoop_visited_dest (adj : Adjacency) (dest : Nat) :
    ∀ (fuel : Nat) (queue visited : List Nat) (parent : List (Nat × Nat)),
      dest ∈ visited →
      (bfsLoop adj dest fuel queue visited parent).2 = false
  | 0, _, _, _, _ => rfl
  | _ + 1, [], _, _, _ => rfl
  | fuel + 1, current :: queueRest, visited, parent, h => by
      have hv := bfsVisitNeighbors_visited_dest dest current (adj current) visited
        queueRest parent h
      simp only [bfsLoop, hv.1, if_false, Bool.false_eq_true]
      exact bfsLoop_visited_dest adj dest fuel _ _ _ hv.2

/-- `ExpanderGraph` BFS routing on a self-pair: the search starts with the
source (= destination) already visited, so it never reports `found` and the
returned route is empty. -/
theorem route_shortest_path_self (n : Nat) (adj : Adjacency) (i : Nat) :
    route_shortest_path n adj i i = [] := by
  have h := bfsLoop_visited_dest adj i (n + 1) [i] [i] [(i, i)] (by simp)
  simp [route_shortest_path, h]

/-- C5 (counterexample): on the 5-cycle expander, `route(0, 0)` returns the
empty route, not `[0]`; and in `FatTree(16, 4)`, `route(2, 2)` returns
`[2, 17, 2]` (out and back through leaf switch 17), not `[2]`. -/
theorem C5_self_route_counterexample :
    route_shortest_path 5 cycle5Adj 0 0 = [] ∧
    route_shortest_path 5 cycle5Adj 0 0 ≠ [0] ∧
    fatTreeRoute 16 4 2 2 = [2, 17, 2] ∧ fatTreeRoute 16 4 2 2 ≠ [2] := by
  decide

/-- C5 (amended): `route(i, i)` is `[i]` for `EpExpanderTopology` only; for
`ExpanderGraph` BFS routing it is the empty route, and for `FatTree` it is the
2-hop route `[i, leaf(i), i]` through the NPU's leaf switch.  A chunk whose
route is the single device `[i]` completes immediately at the source: the
device invokes the callback at the current time and schedules nothing. -/
theorem C5_self_route_amended :
    (∀ (routes : Nat → Nat → List RouteInfo) (i : Nat) (r : ℚ),
        epRoute routes i i r = [i]) ∧
    (∀ (n : Nat) (adj : Adjacency) (i : Nat), route_shortest_path n adj i i = []) ∧
    (∀ (npus k i : Nat),
        fatTreeRoute npus k i i = [i, npus + (npu_to_leaf npus k).getD i 0, i]) ∧
    (∀ (st : SimState) (s i : Nat),
        deviceSend st { size := s, route := [i], cursor := 0 } =
          { st with completions := st.completions ++ [st.current_time] }) := by
  refine ⟨fun routes i r => by simp [epRoute], route_shortest_path_self,
    fun npus k i => by simp [fatTreeRoute], fun st s i => by simp [deviceSend]⟩

/-! ## C9 -/

/-- C9: in the per-device-MoE `SwitchOrExpander`, `route`, `get_distance`
(off the self-pair short-circuit) and `compute_hops_count` all fail on a
mixed-mode pair; on an equal-mode pair, routing goes through the expander
exactly when that shared mode is on and the expander exists, and otherwise
through the switch, producing `[src, switch, dest]`. -/
theorem C9_switch_or_expander_modes (t : SwitchOrExpander) (src dest : Nat)
    (hne : src ≠ dest) :
    (t.moe src ≠ t.moe dest →
      soeRoute t src dest = .error "mixed moe mode" ∧
      soeGetDistance t src dest = .error "mixed moe mode" ∧
      soeComputeHops t src dest = .error "mixed moe mode") ∧
    (t.moe src = t.moe dest →
      (∀ e, t.expander = some e → t.moe src = true →
        soeRoute t src dest = .ok (route_shortest_path e.1 e.2 src dest)) ∧
      ((t.moe src = false ∨ t.expander = none) →
        soeRoute t src dest = .ok [src, t.npus_count, dest])) := by
  constructor
  · intro hmix
    exact ⟨by simp [soeRoute, hmix], by simp [soeGetDistance, hne, hmix],
      by simp [soeComputeHops, hne, hmix]⟩
  · intro heq
    have hd : t.moe dest = t.moe src := heq.symm
    constructor
    · intro e he hmoe
      simp [soeRoute, hd, he, hmoe]
    · rintro (hmoe | hexp)
      · cases he : t.expander <;> simp [soeRoute, hd, hmoe, he, switchRoute]
      · simp [soeRoute, hd, hexp, switchRoute]

/-- C9 witness: a two-NPU instance with NPU 0 in MoE mode and NPU 1 in switch
mode (mixed pair errors), and an all-switch instance routing `[0, 2, 1]`. -/
theorem C9_switch_or_expander_modes_witness :
    (0 : Nat) ≠ 1 ∧
    (let t : SwitchOrExpander :=
      { npus_count := 2, moe := fun i => i = 0, expander := none }
     (t.moe 0 ≠ t.moe 1 →
       soeRoute t 0 1 = .error "mixed moe mode" ∧
       soeGetDistance t 0 1 = .error "mixed moe mode" ∧
       soeComputeHops t 0 1 = .error "mixed moe mode") ∧
     (t.moe 0 = t.moe 1 →
       (∀ e, t.expander = some e → t.moe 0 = true →
         soeRoute t 0 1 = .ok (route_shortest_path e.1 e.2 0 1)) ∧
       ((t.moe 0 = false ∨ t.expander = none) →
         soeRoute t 0 1 = .ok [0, t.npus_count, 1]))) :=
  ⟨by decide,
   C9_switch_or_expander_modes
     { npus_count := 2, moe := fun i => i = 0, expander := none } 0 1 (by decide)⟩

/-! ## C10 -/

/-- A `route_cache` entry survives one further `ExpanderGraph::route` call:
the cache only ever grows by keys that were absent. -/
theorem routeCached_preserves (n : Nat) (adj : Adjacency)
    (cache : List ((Nat × Nat) × List Nat)) (key q : Nat × Nat) (v : List Nat)
    (h : alistFind cache key = some v) :
    alistFind (routeCached n adj cache q.1 q.2).2 key = some v := by
  unfold routeCached
  cases hq : alistFind cache (q.1, q.2) with
  | some p => simpa using h
  | none =>
      simp only [alistFind]
      by_cases hk : key = (q.1, q.2)
      · rw [hk] at h; rw [h] at hq; cases hq
      · simpa [hk] using h

/-- A `route_cache` entry survives any sequence of further route calls. -/
theorem runQueries_preserves (n : Nat) (adj : Adjacency) (key : Nat × Nat)
    (v : List Nat) :
    ∀ (qs : List (Nat × Nat)) (cache : List ((Nat × Nat) × List Nat)),
      alistFind cache key = some v →
      alistFind (runQueries n adj cache qs) key = some v
  | [], cache, h => h
  | q :: qs, cache, h =>
      runQueries_preserves n adj key v qs _ (routeCached_preserves n adj cache key q v h)

/-- A cached pair is answered from the cache verbatim. -/
theorem routeCached_hit (n : Nat) (adj : Adjacency)
    (cache : List ((Nat × Nat) × List Nat)) (src dest : Nat) (v : List Nat)
    (h : alistFind cache (src, dest) = some v) :
    routeCached n adj cache src dest = (v, cache) := by
  simp [routeCached, h]

/-- C10: `ExpanderGraph` shortest-path routes are memoized by device-id
sequence.  Whatever the first `route(src, dest)` call (from cache state
`cache`) returns is stored under `(src, dest)`, survives any interleaved
sequence of other route calls, and is returned verbatim by every later
`route(src, dest)` call — including the empty route that a failed BFS
(e.g. `src = dest`) produces. -/
theorem C10_route_memoized (n : Nat) (adj : Adjacency)
    (cache : List ((Nat × Nat) × List Nat)) (src dest : Nat)
    (qs : List (Nat × Nat))
    (hmiss : alistFind cache (src, dest) = none) :
    (alistFind (runQueries n adj (routeCached n adj cache src dest).2 qs)
        (src, dest) = some (routeCached n adj cache src dest).1) ∧
    ((routeCached n adj
        (runQueries n adj (routeCached n adj cache src dest).2 qs) src dest).1 =
      (routeCached n adj cache src dest).1) ∧
    (src = dest → (routeCached n adj cache src dest).1 = []) := by
  have hstore :
      alistFind (routeCached n adj cache src dest).2 (src, dest) =
        some (routeCached n adj cache src dest).1 := by
    simp [routeCached, hmiss, alistFind]
  have hkeep := runQueries_preserves n adj (src, dest)
    (routeCached n adj cache src dest).1 qs _ hstore
  refine ⟨hkeep, ?_, ?_⟩
  · rw [routeCached_hit n adj _ src dest _ hkeep]
  · intro hsd
    subst hsd
    simp [routeCached, hmiss, route_shortest_path_self]

/-- C10 witness: on the 5-cycle, the first `route(0, 2)` call from the empty
cache survives the later calls `route(1, 3)` and `route(0, 0)` and is returned
again; the self-pair clause fires at `route(0, 0)`. -/
theorem C10_route_memoized_witness :
    alistFind ([] : List ((Nat × Nat) × List Nat)) (0, 2) = none ∧
    ((alistFind
        (runQueries 5 cycle5Adj (routeCached 5 cycle5Adj [] 0 2).2 [(1, 3), (0, 0)])
        (0, 2) = some (routeCached 5 cycle5Adj [] 0 2).1) ∧
     ((routeCached 5 cycle5Adj
         (runQueries 5 cycle5Adj (routeCached 5 cycle5Adj [] 0 2).2 [(1, 3), (0, 0)])
         0 2).1 = (routeCached 5 cycle5Adj [] 0 2).1) ∧
     ((0 : Nat) = 2 → (routeCached 5 cycle5Adj [] 0 2).1 = [])) :=
  ⟨rfl, C10_route_memoized 5 cycle5Adj [] 0 2 [(1, 3), (0, 0)] rfl⟩

/-! ## C6 -/

/-- Each iteration of the Yen loop accepts at most one path. -/
theorem kspOuter_length (n : Nat) (adj : Adjacency) (goal : Nat) :
    ∀ (fuel : Nat) (accepted candidates : List (List Nat)),
      (kspOuter n adj goal fuel accepted candidates).length ≤
        accepted.length + fuel
  | 0, accepted, _ => Nat.le_refl _
  | fuel + 1, accepted, candidates => by
      rw [kspOuter]
      set c' := spurCandidates n adj goal accepted (accepted.getLastD [])
        (List.range ((accepted.getLastD []).length - 1)) candidates with hc
      by_cases h : c' = []
      · simp only [h, if_true]
        exact Nat.le_add_right _ _
      · simp only [h, if_false]
        calc (kspOuter n adj goal fuel (accepted ++ [c'.getD (minLenIdx c') []])
                (c'.eraseIdx (minLenIdx c'))).length
            ≤ (accepted ++ [c'.getD (minLenIdx c') []]).length + fuel :=
              kspOuter_length n adj goal fuel _ _
          _ = accepted.length + (fuel + 1) := by
              simp only [List.length_append, List.length_cons, List.length_nil]
              omega

/-- `k_shortest_paths` returns at most `k_max` paths. -/
theorem k_shortest_paths_length_le (n : Nat) (adj : Adjacency)
    (start goal k_max : Nat) (hk : 1 ≤ k_max) :
    (k_shortest_paths n adj start goal k_max).length ≤ k_max := by
  unfold k_shortest_paths
  by_cases h : bfs_path n adj start goal [] [] = []
  · simp [h]
  · simp only [h, if_false]
    calc (kspOuter n adj goal (k_max - 1) [bfs_path n adj start goal [] []] []).length
        ≤ 1 + (k_max - 1) := kspOuter_length n adj goal (k_max - 1) _ _
      _ = k_max := by omega

/-- The sampled index lands in the window `[start, size)` with
`start = (size > 4 ? 4 : 0)`. -/
theorem topk_sample_index (len choice : Nat) (hlen : len ≠ 0) :
    (if len > 4 then 4 else 0) +
        choice % (len - (if len > 4 then 4 else 0)) < len ∧
      (4 < len →
        4 ≤ (if len > 4 then 4 else 0) +
          choice % (len - (if len > 4 then 4 else 0))) := by
  by_cases h4 : len > 4
  · simp only [h4, if_true]
    have hpos : 0 < len - 4 := by omega
    have := Nat.mod_lt choice hpos
    exact ⟨by omega, fun _ => by omega⟩
  · simp only [h4, if_false, Nat.sub_zero, Nat.zero_add]
    have hpos : 0 < len := Nat.pos_of_ne_zero hlen
    have := Nat.mod_lt choice hpos
    exact ⟨by omega, fun h => h.elim⟩

/-- C6: `route_random_topk` computes and caches, per ordered `(src, dest)`, the
up-to-`k_max_paths = 16` Yen-style shortest simple paths, and every call
returns a cached path: a call answered from the cache returns `paths[i]` for
some `i < paths.length` with `i ≥ 4` whenever at least 5 paths are cached; the
first (cache-miss) call computes `k_shortest_paths … 16` (aborting when no
route exists), stores the whole list under `(src, dest)` and samples from the
same window.  The `mt19937` draw is modelled by the oracle `choice`; any index
of the window is realised by some oracle value, which is the formal content of
"sampled uniformly from the window". -/
theorem C6_random_topk_cached_sampling (n : Nat) (adj : Adjacency)
    (cache : List ((Nat × Nat) × List (List Nat))) (src dest choice : Nat) :
    (∀ paths, alistFind cache (src, dest) = some paths → paths ≠ [] →
      ∃ i, i < paths.length ∧ (4 < paths.length → 4 ≤ i) ∧
        route_random_topk n adj cache src dest choice =
          some (paths.getD i [], cache)) ∧
    (alistFind cache (src, dest) = none →
      (k_shortest_paths n adj src dest k_max_paths).length ≤ k_max_paths ∧
      (k_shortest_paths n adj src dest k_max_paths = [] →
        route_random_topk n adj cache src dest choice = none) ∧
      (k_shortest_paths n adj src dest k_max_paths ≠ [] →
        ∃ i, i < (k_shortest_paths n adj src dest k_max_paths).length ∧
          (4 < (k_shortest_paths n adj src dest k_max_paths).length → 4 ≤ i) ∧
          route_random_topk n adj cache src dest choice =
            some ((k_shortest_paths n adj src dest k_max_paths).getD i [],
              ((src, dest), k_shortest_paths n adj src dest k_max_paths) :: cache))) := by
  constructor
  · intro paths hhit hne
    have hidx := topk_sample_index paths.length choice
      (fun h => hne (List.eq_nil_of_length_eq_zero h))
    refine ⟨(if paths.length > 4 then 4 else 0) + choice % (paths.length -
      (if paths.length > 4 then 4 else 0)), hidx.1, hidx.2, ?_⟩
    simp only [route_random_topk, hhit]
  · intro hmiss
    refine ⟨k_shortest_paths_length_le n adj src dest k_max_paths (by decide),
      ?_, ?_⟩
    · intro hnil
      simp only [route_random_topk, hmiss, hnil, if_true]
    · intro hne
      set paths := k_shortest_paths n adj src dest k_max_paths with hp
      have hlen : paths.length ≠ 0 := fun h => hne (List.eq_nil_of_length_eq_zero h)
      have hidx := topk_sample_index paths.length choice hlen
      have hstart : (if (if paths.length > 4 then 4 else 0) > paths.length - 1
          then 0 else (if paths.length > 4 then 4 else 0)) =
          (if paths.length > 4 then 4 else 0) := by
        by_cases h4 : paths.length > 4 <;> simp [h4] <;> omega
      have hwin : paths.length - 1 - (if paths.length > 4 then 4 else 0) + 1 =
          paths.length - (if paths.length > 4 then 4 else 0) := by
        by_cases h4 : paths.length > 4 <;> simp [h4] <;> omega
      refine ⟨(if paths.length > 4 then 4 else 0) + choice % (paths.length -
        (if paths.length > 4 then 4 else 0)), hidx.1, hidx.2, ?_⟩
      simp only [route_random_topk, hmiss, ← hp, hne, if_false, hstart, hwin]

/-- C6 witness: on the 5-cycle the cache-miss call for `(0, 2)` computes and
caches the two Yen paths and returns one of them. -/
theorem C6_random_topk_cached_sampling_witness :
    alistFind ([] : List ((Nat × Nat) × List (List Nat))) (0, 2) = none ∧
    ((k_shortest_paths 5 cycle5Adj 0 2 k_max_paths).length ≤ k_max_paths ∧
     (k_shortest_paths 5 cycle5Adj 0 2 k_max_paths = [] →
       route_random_topk 5 cycle5Adj [] 0 2 1 = none) ∧
     (k_shortest_paths 5 cycle5Adj 0 2 k_max_paths ≠ [] →
       ∃ i, i < (k_shortest_paths 5 cycle5Adj 0 2 k_max_paths).length ∧
         (4 < (k_shortest_paths 5 cycle5Adj 0 2 k_max_paths).length → 4 ≤ i) ∧
         route_random_topk 5 cycle5Adj [] 0 2 1 =
           some ((k_shortest_paths 5 cycle5Adj 0 2 k_max_paths).getD i [],
             ((0, 2), k_shortest_paths 5 cycle5Adj 0 2 k_max_paths) :: []))) :=
  ⟨rfl, (C6_random_topk_cached_sampling 5 cycle5Adj [] 0 2 1).2 rfl⟩

/-! ## C7 -/

/-- The node-count condition the full-graph branch enforces. -/
theorem expanderGraphBuild_full (npus_count : Nat) (use_resiliency : Bool)
    (f : EGFile)
    (hfull : (if use_resiliency then (npus_count + npus_count / 8) * 2
        else npus_count * 2) ≠ f.node_count) :
    (expanderGraphBuild npus_count use_resiliency f = .fatal ↔
      f.node_count ≠ (if use_resiliency then npus_count + npus_count / 8
        else npus_count)) ∧
    (f.node_count = (if use_resiliency then npus_count + npus_count / 8
        else npus_count) →
      expanderGraphBuild npus_count use_resiliency f =
        .ok (egBuildFull f.connected_graph_adjacency
              (List.replicate (npus_count + npus_count / 8) []))
            (egDegreeWarnings npus_count f.degree
              (egBuildFull f.connected_graph_adjacency
                (List.replicate (npus_count + npus_count / 8) [])))) := by
  cases use_resiliency with
  | false =>
      simp only [if_false, Bool.false_eq_true] at hfull ⊢
      constructor
      · by_cases h : f.node_count = npus_count
        · rw [h] at hfull
          simp [expanderGraphBuild, hfull, h]
        · simp [expanderGraphBuild, hfull, h, Ne.symm h]
      · intro h
        rw [h] at hfull
        simp [expanderGraphBuild, hfull, h]
  | true =>
      simp only [if_true] at hfull ⊢
      constructor
      · by_cases h : f.node_count = npus_count + npus_count / 8
        · rw [h] at hfull
          simp [expanderGraphBuild, hfull, h]
        · simp [expanderGraphBuild, hfull, h, Ne.symm h]
      · intro h
        rw [h] at hfull
        simp [expanderGraphBuild, hfull, h]

/-- C7: in full-graph mode (the declared node count is not the split-mode
double), `ExpanderGraph` construction aborts fatally exactly when the file's
`node_count` differs from `npus_count` (or from `npus_count + npus_count/8`
when resiliency spares are enabled); a node whose built adjacency degree
differs from the declared degree merely lands on the warning list while
construction completes, the warned nodes being exactly the mismatched ones. -/
theorem C7_node_count_fatal_degree_warns (npus_count : Nat)
    (use_resiliency : Bool) (f : EGFile)
    (hfull : (if use_resiliency then (npus_count + npus_count / 8) * 2
        else npus_count * 2) ≠ f.node_count) :
    (expanderGraphBuild npus_count use_resiliency f = .fatal ↔
      f.node_count ≠ (if use_resiliency then npus_count + npus_count / 8
        else npus_count)) ∧
    (f.node_count = (if use_resiliency then npus_count + npus_count / 8
        else npus_count) →
      ∃ adj, expanderGraphBuild npus_count use_resiliency f =
          .ok adj ((List.range npus_count).filter
            fun i => (adj.getD i []).length ≠ f.degree)) := by
  refine ⟨(expanderGraphBuild_full npus_count use_resiliency f hfull).1, fun h => ?_⟩
  exact ⟨_, (expanderGraphBuild_full npus_count use_resiliency f hfull).2 h⟩

/-- C7 witness: two NPUs, full mode; with matching `node_count = 2` and a
declared degree of 5 the single-edge graph builds fine with both nodes warned;
the fatal-iff clause also certifies that `node_count = 3` would abort. -/
theorem C7_node_count_fatal_degree_warns_witness :
    ((if false then (2 + 2 / 8) * 2 else 2 * 2) : Nat) ≠ 2 ∧
    ((expanderGraphBuild 2 false ⟨2, 5, [[1], [0]], [], []⟩ = .fatal ↔
      (2 : Nat) ≠ (if false then 2 + 2 / 8 else 2)) ∧
     ((2 : Nat) = (if false then 2 + 2 / 8 else 2) →
       ∃ adj, expanderGraphBuild 2 false ⟨2, 5, [[1], [0]], [], []⟩ =
           .ok adj ((List.range 2).filter
             fun i => (adj.getD i []).length ≠ 5))) :=
  ⟨by decide, C7_node_count_fatal_degree_warns 2 false ⟨2, 5, [[1], [0]], [], []⟩
    (by decide)⟩

/-! ## C8 -/

/-- `getD` through a reversal reads the mirrored index. -/
theorem getD_reverse (l : List Nat) (i : Nat) (h : i < l.length) (d : Nat) :
    l.reverse.getD i d = l.getD (l.length - 1 - i) d := by
  rw [List.getD_eq_getElem?_getD, List.getD_eq_getElem?_getD,
    List.getElem?_reverse h]

/-- Zipping commutes with reversal for equal-length lists. -/
theorem zip_reverse_eq : ∀ (l1 l2 : List Nat), l1.length = l2.length →
    (l1.zip l2).reverse = l1.reverse.zip l2.reverse
  | [], [], _ => rfl
  | [], _ :: _, h => by cases h
  | _ :: _, [], h => by cases h
  | a :: l1, b :: l2, h => by
      have hlen : l1.length = l2.length := by simpa using h
      have hrev : l1.reverse.length = l2.reverse.length := by simpa using hlen
      simp [List.zip_append hrev, zip_reverse_eq l1 l2 hlen]

/-- The translate loop produces one digit per dimension. -/
theorem translateLoop_length : ∀ (rdims : List Nat) (den left : Nat),
    (translateLoop rdims den left).length = rdims.length
  | [], _, _ => rfl
  | _ :: rest, den, left => by
      simp [translateLoop, translateLoop_length rest]

/-- Every digit the translate loop produces is below its dimension size. -/
theorem translateLoop_digit_lt : ∀ (rdims : List Nat) (left : Nat),
    (∀ d ∈ rdims, 0 < d) → left < rdims.prod →
    ∀ i, i < rdims.length →
      (translateLoop rdims rdims.prod left).getD i 0 < rdims.getD i 0
  | [], _, _, _, i, hi => absurd hi (by simp)
  | n :: rest, left, hpos, hlt, i, hi => by
      have hn : 0 < n := hpos n (by simp)
      have hP : 0 < rest.prod :=
        List.prod_pos fun a ha => hpos a (List.mem_cons_of_mem _ ha)
      have hden : (n :: rest).prod / n = rest.prod := by
        rw [List.prod_cons]
        exact Nat.mul_div_cancel_left _ hn
      rw [List.prod_cons] at hlt
      match i with
      | 0 =>
          simp only [translateLoop, hden, List.getD_cons_zero]
          exact (Nat.div_lt_iff_lt_mul hP).2 hlt
      | i + 1 =>
          simp only [translateLoop, hden, List.getD_cons_succ]
          exact translateLoop_digit_lt rest (left % rest.prod)
            (fun a ha => hpos a (List.mem_cons_of_mem _ ha))
            (Nat.mod_lt _ hP) i (by simpa using hi)

/-- Horner evaluation of the translate loop's digits (highest dimension first)
recovers the translated id. -/
theorem translateLoop_foldl : ∀ (rdims : List Nat) (left g0 : Nat),
    (∀ d ∈ rdims, 0 < d) → left < rdims.prod →
    (rdims.zip (translateLoop rdims rdims.prod left)).foldl
        (fun g p => g * p.1 + p.2) g0 = g0 * rdims.prod + left
  | [], left, g0, _, hlt => by
      have : left = 0 := Nat.lt_one_iff.1 (by simpa using hlt)
      simp [this]
  | n :: rest, left, g0, hpos, hlt => by
      have hn : 0 < n := hpos n (by simp)
      have hP : 0 < rest.prod :=
        List.prod_pos fun a ha => hpos a (List.mem_cons_of_mem _ ha)
      have hden : (n :: rest).prod / n = rest.prod := by
        rw [List.prod_cons]
        exact Nat.mul_div_cancel_left _ hn
      rw [List.prod_cons] at hlt
      simp only [translateLoop, hden, List.zip_cons_cons, List.foldl_cons]
      rw [translateLoop_foldl rest (left % rest.prod) (g0 * n + left / rest.prod)
        (fun a ha => hpos a (List.mem_cons_of_mem _ ha)) (Nat.mod_lt _ hP)]
      rw [List.prod_cons, Nat.add_mul, Nat.add_assoc, Nat.div_add_mod' left rest.prod,
        Nat.mul_assoc]

/-- The spec's `Σ aᵢ · ∏_{j<i} nⱼ` formula agrees with the source's Horner
recomposition. -/
theorem specMixedRadixSum_eq_address_to_global :
    ∀ (dims addr : List Nat), addr.length = dims.length →
      specMixedRadixSum dims addr = address_to_global dims addr
  | [], [], _ => rfl
  | [], _ :: _, h => by cases h
  | _ :: _, [], h => by cases h
  | n :: dims, a :: addr, h => by
      have hlen : addr.length = dims.length := by simpa using h
      have ih := specMixedRadixSum_eq_address_to_global dims addr hlen
      have ha2g : address_to_global (n :: dims) (a :: addr) =
          address_to_global dims addr * n + a := by
        simp only [address_to_global, List.zip_cons_cons, List.reverse_cons,
          List.foldl_append, List.foldl_cons, List.foldl_nil]
      have hsum : specMixedRadixSum (n :: dims) (a :: addr) =
          a + n * specMixedRadixSum dims addr := by
        unfold specMixedRadixSum
        simp only [List.length_cons]
        rw [Finset.sum_range_succ']
        simp only [List.getD_cons_succ, List.getD_cons_zero, List.take_succ_cons,
          List.prod_cons, List.take_zero, List.prod_nil, Nat.mul_one, Nat.add_comm]
        rw [Finset.mul_sum]
        congr 1
        exact Finset.sum_congr rfl fun i _ => by ring
      rw [hsum, ha2g, ih]
      ring

/-- C8: for every global id `g < ∏ nᵢ`, `translate_address` yields one digit
per dimension, each `aᵢ < nᵢ`, the digits satisfy the spec's decomposition
`g = Σ aᵢ · ∏_{j<i} nⱼ`, and recomposing them with the route's
`address_to_global` Horner loop yields `g` back. -/
theorem C8_translate_address_roundtrip (npus_count_per_dim : List Nat)
    (hpos : ∀ d ∈ npus_count_per_dim, 0 < d) (g : Nat)
    (hg : g < npus_count_per_dim.prod) :
    (translate_address npus_count_per_dim g).length = npus_count_per_dim.length ∧
    (∀ i, i < npus_count_per_dim.length →
      (translate_address npus_count_per_dim g).getD i 0 <
        npus_count_per_dim.getD i 0) ∧
    specMixedRadixSum npus_count_per_dim (translate_address npus_count_per_dim g)
      = g ∧
    address_to_global npus_count_per_dim (translate_address npus_count_per_dim g)
      = g := by
  have hposr : ∀ d ∈ npus_count_per_dim.reverse, 0 < d := by
    intro d hd
    exact hpos d (List.mem_reverse.1 hd)
  have hprodr : npus_count_per_dim.reverse.prod = npus_count_per_dim.prod :=
    List.prod_reverse npus_count_per_dim
  have hgr : g < npus_count_per_dim.reverse.prod := by rwa [hprodr]
  have hlenLoop :
      (translateLoop npus_count_per_dim.reverse npus_count_per_dim.prod g).length
        = npus_count_per_dim.length := by
    rw [translateLoop_length]
    exact List.length_reverse _
  have hlen : (translate_address npus_count_per_dim g).length =
      npus_count_per_dim.length := by
    unfold translate_address
    rw [List.length_reverse, hlenLoop]
  have hloopProd :
      translateLoop npus_count_per_dim.reverse npus_count_per_dim.prod g =
        translateLoop npus_count_per_dim.reverse npus_count_per_dim.reverse.prod g
      := by rw [hprodr]
  have ha2g : address_to_global npus_count_per_dim
      (translate_address npus_count_per_dim g) = g := by
    unfold address_to_global translate_address
    rw [zip_reverse_eq _ _ (by rw [List.length_reverse, hlenLoop]),
      List.reverse_reverse, hloopProd,
      translateLoop_foldl npus_count_per_dim.reverse g 0 hposr hgr]
    omega
  refine ⟨hlen, ?_, ?_, ha2g⟩
  · intro i hi
    have hiL : i < (translateLoop npus_count_per_dim.reverse
        npus_count_per_dim.prod g).length := by rwa [hlenLoop]
    unfold translate_address
    rw [getD_reverse _ i hiL, hlenLoop]
    have hrd : npus_count_per_dim.getD i 0 =
        npus_count_per_dim.reverse.getD (npus_count_per_dim.length - 1 - i) 0 := by
      have : npus_count_per_dim.reverse.reverse.getD i 0 =
          npus_count_per_dim.reverse.getD
            (npus_count_per_dim.reverse.length - 1 - i) 0 :=
        getD_reverse npus_count_per_dim.reverse i
          (by rwa [List.length_reverse]) 0
      simpa [List.reverse_reverse, List.length_reverse] using this
    rw [hrd, hloopProd]
    exact translateLoop_digit_lt npus_count_per_dim.reverse g hposr hgr _
      (by rw [List.length_reverse]; omega)
  · rw [specMixedRadixSum_eq_address_to_global _ _ hlen]
    exact ha2g

/-- C8 witness: the spec's own example `[n₀,n₁,n₂] = [2,8,4]`, `g = 47`,
whose address is `[1, 7, 2]`. -/
theorem C8_translate_address_roundtrip_witness :
    (∀ d ∈ [2, 8, 4], 0 < d) ∧ 47 < ([2, 8, 4] : List Nat).prod ∧
    ((translate_address [2, 8, 4] 47).length = ([2, 8, 4] : List Nat).length ∧
     (∀ i, i < ([2, 8, 4] : List Nat).length →
       (translate_address [2, 8, 4] 47).getD i 0 < ([2, 8, 4] : List Nat).getD i 0) ∧
     specMixedRadixSum [2, 8, 4] (translate_address [2, 8, 4] 47) = 47 ∧
     address_to_global [2, 8, 4] (translate_address [2, 8, 4] 47) = 47) :=
  ⟨by decide, by decide,
   C8_translate_address_roundtrip [2, 8, 4] (by decide) 47 (by decide)⟩

/-! ## C4 -/

/-- C4 (counterexample): on the 5-cycle expander under `RandomTopK`,
`compute_hops_count(0, 2)` is the Dijkstra distance 2, but `route(0, 2)` (with
the oracle draw 1, i.e. the second cached path) returns the 3-hop path
`[0, 4, 3, 2]`, so `compute_hops_count(s, d) = len(route(s, d)) - 1` fails. -/
theorem C4_randomtopk_hops_counterexample :
    compute_hops_count 5 cycle5Adj 0 2 = some 2 ∧
    route_random_topk 5 cycle5Adj [] 0 2 1 =
      some ([0, 4, 3, 2], [((0, 2), [[0, 1, 2], [0, 4, 3, 2]])]) ∧
    ([0, 4, 3, 2].length - 1 : Nat) = 3 ∧ (3 : Nat) ≠ 2 := by
  refine ⟨by decide, by decide, by decide, by decide⟩

/-! ### Walks and distances: basic lemmas -/

/-- The only 0-edge walk is the trivial one. -/
theorem walk_zero {adj : Adjacency} {s d : Nat} (w : Walk adj s d 0) : d = s := by
  cases w
  rfl

/-- Walks compose. -/
theorem walk_trans {adj : Adjacency} {s u d a : Nat} :
    ∀ {b : Nat}, Walk adj s u a → Walk adj u d b → Walk adj s d (a + b)
  | _, w1, Walk.nil => w1
  | _, w1, Walk.snoc w2 h => Walk.snoc (walk_trans w1 w2) h

/-- A `(k+1)`-edge walk decomposes into a `k`-edge walk plus one edge. -/
theorem walk_snoc_inv {adj : Adjacency} {s v k : Nat}
    (w : Walk adj s v (k + 1)) : ∃ u, Walk adj s u k ∧ v ∈ adj u := by
  cases w with
  | snoc w h => exact ⟨_, w, h⟩

/-- Reachability yields a shortest distance. -/
theorem reach_isDist {adj : Adjacency} {s d : Nat} (h : Reach adj s d) :
    ∃ k, IsDist adj s d k := by
  classical
  exact ⟨Nat.find h, Nat.find_spec h, fun j hj => Nat.find_min' h hj⟩

/-- Shortest distances are unique. -/
theorem isDist_unique {adj : Adjacency} {s d k k' : Nat}
    (h : IsDist adj s d k) (h' : IsDist adj s d k') : k = k' :=
  Nat.le_antisymm (h.2 _ h'.1) (h'.2 _ h.1)

/-- The distance of the source to itself is 0. -/
theorem isDist_self (adj : Adjacency) (s : Nat) : IsDist adj s s 0 :=
  ⟨Walk.nil, fun _ _ => Nat.zero_le _⟩

/-- Any walk witness dominates the distance. -/
theorem isDist_le_walk {adj : Adjacency} {s d k j : Nat}
    (h : IsDist adj s d k) (w : Walk adj s d j) : k ≤ j := h.2 j w

/-- A walk from a `P`-node to a non-`P`-node crosses the boundary: some prefix
ends at a `P`-node `u` with an edge to a non-`P` node `v`, and the walk's
remainder runs from `v` to the endpoint. -/
theorem walk_escape {adj : Adjacency} {s x m : Nat} {P : Nat → Prop}
    (w : Walk adj s x m) (hs : P s) (hx : ¬ P x) :
    ∃ j u v, j < m ∧ Walk adj s u j ∧ v ∈ adj u ∧ P u ∧ ¬ P v ∧
      Walk adj v x (m - (j + 1)) := by
  induction w with
  | nil => exact absurd hs hx
  | @snoc u v k w h ih =>
      by_cases hu : P u
      · exact ⟨k, u, v, Nat.lt_succ_self k, w, h, hu, hx, by
          simpa [Nat.succ_sub_one] using (Walk.nil : Walk adj v v 0)⟩
      · obtain ⟨j, a, b, hj, wa, hab, ha, hb, wrest⟩ := ih hu
        refine ⟨j, a, b, Nat.lt_succ_of_lt hj, wa, hab, ha, hb, ?_⟩
        have : k + 1 - (j + 1) = (k - (j + 1)) + 1 := by omega
        rw [this]
        exact Walk.snoc wrest h

/-! ### Parent chains -/

/-- Parent chains are stable under growing the visited set. -/
theorem chainIn_mono_vis {parent : List (Nat × Nat)} {vis vis' : List Nat}
    {s : Nat} (hsub : ∀ x ∈ vis, x ∈ vis') :
    ∀ {k x : Nat}, ChainIn parent vis s k x → ChainIn parent vis' s k x
  | 0, _, h => h
  | k + 1, x, h => by
      obtain ⟨hxs, hxv, y, hy, hrest⟩ := h
      exact ⟨hxs, hsub x hxv, y, hy, chainIn_mono_vis hsub hrest⟩

/-- Parent chains are stable under binding a key outside the visited set. -/
theorem chainIn_extend_parent {parent : List (Nat × Nat)} {vis : List Nat}
    {s key yv : Nat} (hkey : key ∉ vis) :
    ∀ {k x : Nat}, ChainIn parent vis s k x →
      ChainIn ((key, yv) :: parent) vis s k x
  | 0, _, h => h
  | k + 1, x, h => by
      obtain ⟨hxs, hxv, y, hy, hrest⟩ := h
      have hxk : x ≠ key := fun he => hkey (he ▸ hxv)
      exact ⟨hxs, hxv, y, by simp [alistFind, hxk, hy],
        chainIn_extend_parent hkey hrest⟩

/-- `rebuildPath` follows a parent chain of length `k` in exactly `k + 1`
nodes (given enough fuel). -/
theorem chainIn_rebuild_length {parent : List (Nat × Nat)} {vis : List Nat}
    {s : Nat} :
    ∀ {k x : Nat} (fuel : Nat), ChainIn parent vis s k x → k + 1 ≤ fuel →
      (rebuildPath parent s fuel x).length = k + 1
  | 0, x, fuel, h, hf => by
      obtain ⟨fuel, rfl⟩ : ∃ f, fuel = f + 1 := ⟨fuel - 1, by omega⟩
      subst h
      simp [rebuildPath]
  | k + 1, x, fuel, h, hf => by
      obtain ⟨fuel, rfl⟩ : ∃ f, fuel = f + 1 := ⟨fuel - 1, by omega⟩
      obtain ⟨hxs, _, y, hy, hrest⟩ := h
      simp only [rebuildPath, hxs, if_false, List.length_cons, hy, Option.getD_some]
      rw [chainIn_rebuild_length fuel hrest (by omega)]

/-- A duplicate-free list of numbers below `n` has at most `n` elements. -/
theorem nodup_bounded_length_le {l : List Nat} {n : Nat} (hnd : l.Nodup)
    (hb : ∀ x ∈ l, x < n) : l.length ≤ n := by
  have hsub : l.toFinset ⊆ Finset.range n := by
    intro x hx
    exact Finset.mem_range.2 (hb x (List.mem_toFinset.1 hx))
  have := Finset.card_le_card hsub
  rwa [List.toFinset_card_of_nodup hnd, Finset.card_range] at this

/-- One pass of the BFS neighbor loop preserves the BFS invariant and reports
its frontier additions. -/
theorem bfsVisit_spec (n : Nat) (adj : Adjacency) (s dest ℓ current : Nat)
    (hadj : ∀ u, u < n → ∀ v ∈ adj u, v < n) (hdest : dest ≠ s)
    (hcur : IsDist adj s current ℓ) :
    ∀ (nbs visited queue : List Nat) (parent : List (Nat × Nat)),
      (∀ v ∈ nbs, v ∈ adj current) → current ∈ visited →
      BfsInv n adj s dest ℓ visited parent →
      (∀ x ∈ queue, x ∈ visited) → queue.Nodup →
      BfsVisitOut n adj s dest ℓ nbs visited queue parent
        (bfsVisitNeighbors dest current nbs visited queue parent)
  | [], visited, queue, parent, _, _, hinv, hqv, hqnd =>
      { mono := fun _ hx => hx
        delta := ⟨[], by simp [bfsVisitNeighbors], by simp,
          fun x hx => Or.inl hx, by simp, by simp [bfsVisitNeighbors]⟩
        queue_mem := hqv
        queue_nodup := hqnd
        not_found := fun _ => ⟨hinv, by simp⟩
        found := fun h => Bool.noConfusion h }
  | nb :: rest, visited, queue, parent, hnbs, hcv, hinv, hqv, hqnd => by
      by_cases hv : nb ∈ visited
      · have ih := bfsVisit_spec n adj s dest ℓ current hadj hdest hcur rest
          visited queue parent (fun v hvm => hnbs v (List.mem_cons_of_mem _ hvm))
          hcv hinv hqv hqnd
        rw [show bfsVisitNeighbors dest current (nb :: rest) visited queue parent
            = bfsVisitNeighbors dest current rest visited queue parent from by
          simp [bfsVisitNeighbors, hv]]
        exact { ih with
          not_found := fun hf => ⟨(ih.not_found hf).1, fun v hvm => by
            rcases List.mem_cons.1 hvm with rfl | hvm
            · exact ih.mono v hv
            · exact (ih.not_found hf).2 v hvm⟩ }
      · have hnb_adj : nb ∈ adj current := hnbs nb (List.mem_cons_self _ _)
        have hnb_lt : nb < n := hadj current (hinv.bounded current hcv) nb hnb_adj
        have wnb : Walk adj s nb (ℓ + 1) := Walk.snoc hcur.1 hnb_adj
        obtain ⟨k0, hk0⟩ := reach_isDist ⟨ℓ + 1, wnb⟩
        have hk0le : k0 ≤ ℓ + 1 := isDist_le_walk hk0 wnb
        have hk0gt : ¬ k0 ≤ ℓ := fun hle => hv (hinv.complete nb k0 hk0 hle)
        have hnbdist : IsDist adj s nb (ℓ + 1) := by
          have hk0eq : k0 = ℓ + 1 := by omega
          exact hk0eq ▸ hk0
        have hnb_ne_s : nb ≠ s := fun he => hv (he ▸ hinv.src_mem)
        obtain ⟨kc, hkc, hklen, hkchain⟩ := hinv.chains current hcv
        have hkceq : kc = ℓ := isDist_unique hkc hcur
        rw [hkceq] at hklen hkchain
        have hsub : ∀ x ∈ visited, x ∈ nb :: visited :=
          fun x hx => List.mem_cons_of_mem _ hx
        have hchain_nb :
            ChainIn ((nb, current) :: parent) (nb :: visited) s (ℓ + 1) nb :=
          ⟨hnb_ne_s, List.mem_cons_self _ _, current, by simp [alistFind],
            chainIn_mono_vis hsub (chainIn_extend_parent hv hkchain)⟩
        have hq1mem : ∀ x ∈ queue ++ [nb], x ∈ nb :: visited := by
          intro x hx
          rcases List.mem_append.1 hx with hx | hx
          · exact List.mem_cons_of_mem _ (hqv x hx)
          · rw [List.mem_singleton.1 hx]
            exact List.mem_cons_self _ _
        have hq1nd : (queue ++ [nb]).Nodup := by
          rw [List.nodup_append]
          exact ⟨hqnd, List.nodup_singleton _, fun a ha hb =>
            hv ((List.mem_singleton.1 hb) ▸ hqv a ha)⟩
        by_cases hd : nb = dest
        · subst hd
          rw [show bfsVisitNeighbors nb current (nb :: rest) visited queue parent
              = (nb :: visited, queue ++ [nb], (nb, current) :: parent, true) from by
            simp [bfsVisitNeighbors, hv]]
          refine
            { mono := hsub
              delta := ⟨[nb], rfl, ?_, ?_, by simp, by simp [Nat.add_comm]⟩
              queue_mem := hq1mem
              queue_nodup := hq1nd
              not_found := fun h => Bool.noConfusion h
              found := fun _ => ⟨⟨ℓ + 1, hnbdist, by simp; omega, hchain_nb⟩,
                List.nodup_cons.2 ⟨hv, hinv.nodup⟩, ?_⟩ }
          · intro x hx
            rw [List.mem_singleton.1 hx]
            exact ⟨hnbdist, hv⟩
          · intro x hx
            rcases List.mem_cons.1 hx with rfl | hx
            · exact Or.inr (List.mem_singleton.2 rfl)
            · exact Or.inl hx
          · intro x hx
            rcases List.mem_cons.1 hx with rfl | hx
            · exact hnb_lt
            · exact hinv.bounded x hx
        · have hinv1 : BfsInv n adj s dest ℓ (nb :: visited)
              ((nb, current) :: parent) :=
            { bounded := fun x hx => by
                rcases List.mem_cons.1 hx with rfl | hx
                · exact hnb_lt
                · exact hinv.bounded x hx
              nodup := List.nodup_cons.2 ⟨hv, hinv.nodup⟩
              src_mem := List.mem_cons_of_mem _ hinv.src_mem
              dest_not := fun hmem => by
                rcases List.mem_cons.1 hmem with he | hmem
                · exact hd he.symm
                · exact hinv.dest_not hmem
              complete := fun x k hx hk =>
                List.mem_cons_of_mem _ (hinv.complete x k hx hk)
              chains := fun x hx => by
                rcases List.mem_cons.1 hx with rfl | hx
                · exact ⟨ℓ + 1, hnbdist, by simp; omega, hchain_nb⟩
                · obtain ⟨k, hk, hkl, hkch⟩ := hinv.chains x hx
                  exact ⟨k, hk, by simp; omega,
                    chainIn_mono_vis hsub (chainIn_extend_parent hv hkch)⟩ }
          have ih := bfsVisit_spec n adj s dest ℓ current hadj hdest hcur rest
            (nb :: visited) (queue ++ [nb]) ((nb, current) :: parent)
            (fun v hvm => hnbs v (List.mem_cons_of_mem _ hvm))
            (List.mem_cons_of_mem _ hcv) hinv1 hq1mem hq1nd
          rw [show bfsVisitNeighbors dest current (nb :: rest) visited queue parent
              = bfsVisitNeighbors dest current rest (nb :: visited) (queue ++ [nb])
                  ((nb, current) :: parent) from by
            simp [bfsVisitNeighbors, hv, hd]]
          obtain ⟨Δ', hq', hΔd, hchar, hΔm, hlen⟩ := ih.delta
          refine
            { mono := fun x hx => ih.mono x (hsub x hx)
              delta := ⟨nb :: Δ', by simp [hq'], ?_, ?_, ?_, by simp [hlen]; omega⟩
              queue_mem := ih.queue_mem
              queue_nodup := ih.queue_nodup
              not_found := fun hf => ⟨(ih.not_found hf).1, fun v hvm => by
                rcases List.mem_cons.1 hvm with rfl | hvm
                · exact ih.mono v (List.mem_cons_self _ _)
                · exact (ih.not_found hf).2 v hvm⟩
              found := ih.found }
          · intro x hx
            rcases List.mem_cons.1 hx with rfl | hx
            · exact ⟨hnbdist, hv⟩
            · exact ⟨(hΔd x hx).1, fun hmem =>
                (hΔd x hx).2 (List.mem_cons_of_mem _ hmem)⟩
          · intro x hx
            rcases hchar x hx with hx1 | hx1
            · rcases List.mem_cons.1 hx1 with rfl | hx1
              · exact Or.inr (List.mem_cons_self _ _)
              · exact Or.inl hx1
            · exact Or.inr (List.mem_cons_of_mem _ hx1)
          · intro x hx
            rcases List.mem_cons.1 hx with rfl | hx
            · exact ih.mono x (List.mem_cons_self _ _)
            · exact hΔm x hx

/-- A visited set containing the source and closed under the adjacency
relation contains every reachable node. -/
theorem closed_visited_complete {adj : Adjacency} {s : Nat} {visited : List Nat}
    (hs : s ∈ visited)
    (hcl : ∀ u ∈ visited, ∀ v ∈ adj u, v ∈ visited) :
    ∀ (k x : Nat), IsDist adj s x k → x ∈ visited := by
  intro k
  induction k using Nat.strong_induction_on with
  | _ k ih =>
      intro x hx
      match k, hx with
      | 0, hx => exact (walk_zero hx.1) ▸ hs
      | k + 1, hx =>
          obtain ⟨u, wu, hedge⟩ := walk_snoc_inv hx.1
          obtain ⟨ku, hku⟩ := reach_isDist ⟨k, wu⟩
          have hlt : ku < k + 1 := Nat.lt_succ_of_le (isDist_le_walk hku wu)
          exact hcl u (ih ku hlt u hku) x hedge

/-- The BFS main loop: under the BFS invariant, if it reports `found` the
parent map holds a chain to `dest` realising the shortest distance, and if it
terminates without `found` the destination is unreachable. -/
theorem bfsLoop_spec (n : Nat) (adj : Adjacency) (s dest : Nat)
    (hadj : ∀ u, u < n → ∀ v ∈ adj u, v < n) (hdest : dest ≠ s) :
    ∀ (fuel : Nat) (A B visited : List Nat) (parent : List (Nat × Nat)) (ℓ : Nat),
      BfsInv n adj s dest ℓ visited parent →
      (∀ x ∈ A ++ B, x ∈ visited) → (A ++ B).Nodup →
      (∀ x ∈ A, IsDist adj s x ℓ) → (∀ x ∈ B, IsDist adj s x (ℓ + 1)) →
      (A = [] → B = []) →
      (∀ u ∈ visited, u ∉ A ++ B → ∀ v ∈ adj u, v ∈ visited) →
      (A ++ B).length + (n - visited.length) ≤ fuel →
      (((bfsLoop adj dest fuel (A ++ B) visited parent).2 = true →
         ∃ k, IsDist adj s dest k ∧ k + 1 ≤ n ∧
           ∃ vis2, ChainIn (bfsLoop adj dest fuel (A ++ B) visited parent).1
             vis2 s k dest) ∧
       ((bfsLoop adj dest fuel (A ++ B) visited parent).2 = false →
         ¬ Reach adj s dest))
  | 0, A, B, visited, parent, ℓ, hinv, _, _, _, _, _, hproc, hfuel => by
      have hnil : A ++ B = [] := by
        have : (A ++ B).length = 0 := by omega
        exact List.eq_nil_of_length_eq_zero this
      rw [hnil]
      refine ⟨fun h => Bool.noConfusion h, fun _ hre => ?_⟩
      obtain ⟨k, hk⟩ := reach_isDist hre
      have hcl : ∀ u ∈ visited, ∀ v ∈ adj u, v ∈ visited := by
        intro u hu v hv
        exact hproc u hu (by simp [hnil]) v hv
      exact hinv.dest_not (closed_visited_complete hinv.src_mem hcl k dest hk)
  | fuel + 1, [], B, visited, parent, ℓ, hinv, _, _, _, _, hAB, hproc, _ => by
      have hB : B = [] := hAB rfl
      subst hB
      refine ⟨fun h => Bool.noConfusion h, fun _ hre => ?_⟩
      obtain ⟨k, hk⟩ := reach_isDist hre
      have hcl : ∀ u ∈ visited, ∀ v ∈ adj u, v ∈ visited := by
        intro u hu v hv
        exact hproc u hu (by simp) v hv
      exact hinv.dest_not (closed_visited_complete hinv.src_mem hcl k dest hk)
  | fuel + 1, current :: A', B, visited, parent, ℓ, hinv, hqv, hqnd, hA, hB,
      _, hproc, hfuel => by
      have hcurq : current ∈ (current :: A') ++ B := by simp
      have hcur : IsDist adj s current ℓ := hA current (List.mem_cons_self _ _)
      have hqv' : ∀ x ∈ A' ++ B, x ∈ visited :=
        fun x hx => hqv x (by simp [List.mem_append] at hx ⊢; tauto)
      have hqnd' : (A' ++ B).Nodup := by
        have : (current :: (A' ++ B)).Nodup := by simpa using hqnd
        exact (List.nodup_cons.1 this).2
      have hcurnq : current ∉ A' ++ B := by
        have : (current :: (A' ++ B)).Nodup := by simpa using hqnd
        exact (List.nodup_cons.1 this).1
      have out := bfsVisit_spec n adj s dest ℓ current hadj hdest hcur
        (adj current) visited (A' ++ B) parent (fun v hv => hv)
        (hqv current hcurq) hinv hqv' hqnd'
      set r := bfsVisitNeighbors dest current (adj current) visited (A' ++ B)
        parent with hrdef
      have hloopeq : bfsLoop adj dest (fuel + 1) ((current :: A') ++ B) visited
          parent =
          if r.2.2.2 then (r.2.2.1, true)
          else bfsLoop adj dest fuel r.2.1 r.1 r.2.2.1 := rfl
      obtain ⟨Δ, hqΔ, hΔd, hchar, hΔm, hlenΔ⟩ := out.delta
      by_cases hf : r.2.2.2 = true
      · rw [hloopeq, if_pos hf]
        obtain ⟨⟨k, hk, hklen, hkchain⟩, hnd, hbd⟩ := out.found hf
        have : r.1.length ≤ n := nodup_bounded_length_le hnd hbd
        exact ⟨fun _ => ⟨k, hk, by omega, r.1, hkchain⟩,
          fun h => Bool.noConfusion h⟩
      · have hff : r.2.2.2 = false := by
          revert hf; cases r.2.2.2 <;> simp
        rw [hloopeq, if_neg hf]
        obtain ⟨hinv', hcov⟩ := out.not_found hff
        have hvlen : r.1.length ≤ n :=
          nodup_bounded_length_le hinv'.nodup hinv'.bounded
        have hq2 : r.2.1 = (A' ++ B) ++ Δ := hqΔ
        have hBΔ : ∀ x ∈ B ++ Δ, IsDist adj s x (ℓ + 1) := by
          intro x hx
          rcases List.mem_append.1 hx with hx | hx
          · exact hB x hx
          · exact (hΔd x hx).1
        have hproc2 : ∀ u ∈ r.1, u ∉ (A' ++ B) ++ Δ → ∀ v ∈ adj u, v ∈ r.1 := by
          intro u hu hnq v hv
          rcases hchar u hu with huv | huΔ
          · by_cases huc : u = current
            · exact hcov v (huc ▸ hv)
            · have huq : u ∉ (current :: A') ++ B := by
                intro hmem
                have hm : u = current ∨ u ∈ A' ∨ u ∈ B := by simpa using hmem
                rcases hm with he | hm2 | hm3
                · exact huc he
                · exact hnq
                    (List.mem_append.2 (Or.inl (List.mem_append.2 (Or.inl hm2))))
                · exact hnq
                    (List.mem_append.2 (Or.inl (List.mem_append.2 (Or.inr hm3))))
              exact out.mono v (hproc u huv huq v hv)
          · exact absurd (List.mem_append.2 (Or.inr huΔ)) hnq
        have hfuel2 : ((A' ++ B) ++ Δ).length + (n - r.1.length) ≤ fuel := by
          have h1 : ((current :: A') ++ B).length = (A' ++ B).length + 1 := by
            simp
          simp only [List.length_append] at hfuel h1 ⊢
          omega
        by_cases hA0 : A' = []
        · subst hA0
          have hcomp2 : ∀ x k, IsDist adj s x k → k ≤ ℓ + 1 → x ∈ r.1 := by
            intro x k hx hk
            rcases Nat.lt_or_ge k (ℓ + 1) with hlt | hge
            · exact hinv'.complete x k hx (by omega)
            · have hke : k = ℓ + 1 := by omega
              subst hke
              obtain ⟨u, wu, hedge⟩ := walk_snoc_inv hx.1
              obtain ⟨ku, hku⟩ := reach_isDist ⟨ℓ, wu⟩
              have hkule : ku ≤ ℓ := isDist_le_walk hku wu
              have huv : u ∈ r.1 := hinv'.complete u ku hku hkule
              have hunq : u ∉ ([] ++ B) ++ Δ := by
                intro hmem
                have : IsDist adj s u (ℓ + 1) := by
                  rcases List.mem_append.1 hmem with hm | hm
                  · exact hBΔ u (List.mem_append.2 (Or.inl (by simpa using hm)))
                  · exact (hΔd u hm).1
                have := isDist_unique hku this
                omega
              exact hproc2 u huv hunq x hedge
          have hinv2 : BfsInv n adj s dest (ℓ + 1) r.1 r.2.2.1 :=
            { hinv' with
              complete := hcomp2
              chains := fun x hx => by
                obtain ⟨k, hk, hkl, hkch⟩ := hinv'.chains x hx
                exact ⟨k, hk, hkl, hkch⟩ }
          have ih := bfsLoop_spec n adj s dest hadj hdest fuel (B ++ Δ) [] r.1
            r.2.2.1 (ℓ + 1) hinv2
            (by simpa using fun x hx => out.queue_mem x (hq2 ▸ (by
              simpa using hx)))
            (by simpa using (hq2 ▸ out.queue_nodup : ((([] : List Nat) ++ B) ++ Δ).Nodup))
            (by simpa using hBΔ) (by simp) (fun _ => rfl)
            (by
              intro u hu hnq v hv
              exact hproc2 u hu (by simpa using hnq) v hv)
            (by simpa using hfuel2)
          have hqe : r.2.1 = (B ++ Δ) ++ [] := by simpa using hq2
          rw [hqe]
          exact ih
        · have ih := bfsLoop_spec n adj s dest hadj hdest fuel A' (B ++ Δ) r.1
            r.2.2.1 ℓ hinv'
            (by
              intro x hx
              exact out.queue_mem x (by rw [hq2]; simpa [List.mem_append] using
                (by simpa [List.mem_append] using hx : x ∈ A' ∨ x ∈ B ∨ x ∈ Δ)))
            (by rw [← List.append_assoc]; exact hq2 ▸ out.queue_nodup)
            (fun x hx => hA x (List.mem_cons_of_mem _ hx)) hBΔ
            (fun h => absurd h hA0) (by
              intro u hu hnq v hv
              exact hproc2 u hu (by
                intro hmem
                exact hnq (by
                  rcases List.mem_append.1 hmem with hm | hm
                  · rcases List.mem_append.1 hm with hm2 | hm2
                    · exact List.mem_append.2 (Or.inl hm2)
                    · exact List.mem_append.2
                        (Or.inr (List.mem_append.2 (Or.inl hm2)))
                  · exact List.mem_append.2
                      (Or.inr (List.mem_append.2 (Or.inr hm))))) v hv)
            (by rw [← List.append_assoc]; exact hfuel2)
          have hqe : r.2.1 = A' ++ (B ++ Δ) := by
            rw [hq2, List.append_assoc]
          rw [hqe]
          exact ih

/-- `ExpanderGraph` BFS routing computes a shortest route: when `dest` is
reachable the returned device list has exactly `dist + 1` entries, and when it
is unreachable the returned route is empty. -/
theorem route_shortest_path_dist (n : Nat) (adj : Adjacency) (s dest : Nat)
    (hadj : ∀ u, u < n → ∀ v ∈ adj u, v < n) (hs : s < n) (hne : dest ≠ s) :
    (Reach adj s dest →
       ∃ k, IsDist adj s dest k ∧
         (route_shortest_path n adj s dest).length = k + 1) ∧
    (¬ Reach adj s dest → route_shortest_path n adj s dest = []) := by
  have hinv0 : BfsInv n adj s dest 0 [s] [(s, s)] :=
    { bounded := fun x hx => (List.mem_singleton.1 hx) ▸ hs
      nodup := List.nodup_singleton _
      src_mem := List.mem_singleton.2 rfl
      dest_not := fun h => hne (List.mem_singleton.1 h)
      complete := fun x k hx hk => by
        have hk0 : k = 0 := by omega
        subst hk0
        exact List.mem_singleton.2 (walk_zero hx.1)
      chains := fun x hx => by
        rw [List.mem_singleton.1 hx]
        exact ⟨0, isDist_self adj s, by simp, rfl⟩ }
  have hmain := bfsLoop_spec n adj s dest hadj hne (n + 1) [s] [] [s] [(s, s)] 0
    hinv0 (fun x hx => by simpa using hx) (by simp)
    (fun x hx => (List.mem_singleton.1 hx) ▸ isDist_self adj s)
    (by simp) (fun h => by cases h)
    (fun u hu hnq => absurd (by simpa using hu : u ∈ [s] ++ []) hnq)
    (by simp; omega)
  constructor
  · intro hre
    have r2 : (bfsLoop adj dest (n + 1) ([s] ++ []) [s] [(s, s)]).2 = true := by
      cases h2 : (bfsLoop adj dest (n + 1) ([s] ++ []) [s] [(s, s)]).2 with
      | false => exact absurd hre (hmain.2 h2)
      | true => rfl
    obtain ⟨k, hk, hkn, vis2, chain⟩ := hmain.1 r2
    refine ⟨k, hk, ?_⟩
    have r2' : (bfsLoop adj dest (n + 1) [s] [s] [(s, s)]).2 = true := r2
    simp only [route_shortest_path, r2', if_true, List.length_reverse]
    exact chainIn_rebuild_length (n + 1) chain (by omega)
  · intro hnr
    have r2 : (bfsLoop adj dest (n + 1) ([s] ++ []) [s] [(s, s)]).2 = false := by
      cases h2 : (bfsLoop adj dest (n + 1) ([s] ++ []) [s] [(s, s)]).2 with
      | true =>
          obtain ⟨k, hk, _⟩ := hmain.1 h2
          exact absurd ⟨k, hk.1⟩ hnr
      | false => rfl
    have r2' : (bfsLoop adj dest (n + 1) [s] [s] [(s, s)]).2 = false := r2
    simp [route_shortest_path, r2']

/-! ### Dijkstra (`ExpanderGraph::get_distance`) correctness -/

/-- Shortest distances in a graph on `n` bounded node ids are below `n`
(obtained by running the verified BFS). -/
theorem isDist_succ_le (n : Nat) (adj : Adjacency) (s x k : Nat)
    (hadj : ∀ u, u < n → ∀ v ∈ adj u, v < n) (hs : s < n)
    (h : IsDist adj s x k) : k + 1 ≤ n := by
  by_cases hx : x = s
  · rw [hx] at h
    have hk0 : k = 0 := isDist_unique h (isDist_self adj s)
    omega
  · have hinv0 : BfsInv n adj s x 0 [s] [(s, s)] :=
      { bounded := fun y hy => (List.mem_singleton.1 hy) ▸ hs
        nodup := List.nodup_singleton _
        src_mem := List.mem_singleton.2 rfl
        dest_not := fun hm => hx (List.mem_singleton.1 hm)
        complete := fun y j hy hj => by
          have hj0 : j = 0 := by omega
          subst hj0
          exact List.mem_singleton.2 (walk_zero hy.1)
        chains := fun y hy => by
          rw [List.mem_singleton.1 hy]
          exact ⟨0, isDist_self adj s, by simp, rfl⟩ }
    have hmain := bfsLoop_spec n adj s x hadj hx (n + 1) [s] [] [s] [(s, s)] 0
      hinv0 (fun y hy => by simpa using hy) (by simp)
      (fun y hy => (List.mem_singleton.1 hy) ▸ isDist_self adj s)
      (by simp) (fun hh => by cases hh)
      (fun u hu hnq => absurd (by simpa using hu : u ∈ [s] ++ []) hnq)
      (by simp; omega)
    have hre : Reach adj s x := ⟨k, h.1⟩
    cases h2 : (bfsLoop adj x (n + 1) ([s] ++ []) [s] [(s, s)]).2 with
    | false => exact absurd hre (hmain.2 h2)
    | true =>
        obtain ⟨k', hk', hk'n, _⟩ := hmain.1 h2
        have := isDist_unique h hk'
        omega

/-- `popMinPair` returns `none` exactly on the empty queue. -/
theorem popMinPair_eq_none {pq : List (Nat × Nat)} :
    popMinPair pq = none ↔ pq = [] := by
  constructor
  · intro h
    cases pq with
    | nil => rfl
    | cons p rest =>
        rw [popMinPair] at h
        cases hrec : popMinPair rest with
        | none => rw [hrec] at h; cases h
        | some q =>
            obtain ⟨qm, qrest⟩ := q
            rw [hrec] at h
            simp only at h
            by_cases hc : p.1 < qm.1 ∨ (p.1 = qm.1 ∧ p.2 ≤ qm.2)
            · rw [if_pos hc] at h; cases h
            · rw [if_neg hc] at h; cases h
  · intro h
    subst h
    rfl

/-- The element `popMinPair` removes is a permutation split of the queue. -/
theorem popMinPair_perm :
    ∀ {pq : List (Nat × Nat)} {m : Nat × Nat} {rest : List (Nat × Nat)},
      popMinPair pq = some (m, rest) → pq.Perm (m :: rest)
  | [], _, _, h => by cases h
  | p :: pq, m, rest, h => by
      rw [popMinPair] at h
      cases hrec : popMinPair pq with
      | none =>
          rw [hrec] at h
          cases h
          have hnil : pq = [] := popMinPair_eq_none.1 hrec
          subst hnil
          exact List.Perm.refl _
      | some q =>
          obtain ⟨qm, qrest⟩ := q
          rw [hrec] at h
          simp only at h
          by_cases hc : p.1 < qm.1 ∨ (p.1 = qm.1 ∧ p.2 ≤ qm.2)
          · rw [if_pos hc] at h
            cases h
            exact List.Perm.refl _
          · rw [if_neg hc] at h
            cases h
            exact ((popMinPair_perm hrec).cons p).trans (List.Perm.swap _ _ _)

/-- The element `popMinPair` removes has the least key. -/
theorem popMinPair_min :
    ∀ {pq : List (Nat × Nat)} {m : Nat × Nat} {rest : List (Nat × Nat)},
      popMinPair pq = some (m, rest) → ∀ e ∈ pq, m.1 ≤ e.1
  | [], _, _, h => by cases h
  | p :: pq, m, rest, h => by
      rw [popMinPair] at h
      cases hrec : popMinPair pq with
      | none =>
          rw [hrec] at h
          cases h
          intro e he
          have hnil : pq = [] := popMinPair_eq_none.1 hrec
          subst hnil
          rcases List.mem_cons.1 he with rfl | he
          · exact Nat.le_refl _
          · exact absurd he (List.not_mem_nil _)
      | some q =>
          obtain ⟨qm, qrest⟩ := q
          rw [hrec] at h
          simp only at h
          by_cases hc : p.1 < qm.1 ∨ (p.1 = qm.1 ∧ p.2 ≤ qm.2)
          · rw [if_pos hc] at h
            cases h
            intro e he
            rcases List.mem_cons.1 he with rfl | he
            · exact Nat.le_refl _
            · have hq := popMinPair_min hrec e he
              omega
          · rw [if_neg hc] at h
            cases h
            intro e he
            have hqp : m.1 ≤ p.1 := by
              rcases Nat.lt_trichotomy p.1 m.1 with hlt | heq | hgt
              · exact absurd (Or.inl hlt) hc
              · by_cases hp2 : p.2 ≤ m.2
                · exact absurd (Or.inr ⟨heq, hp2⟩) hc
                · omega
              · omega
            rcases List.mem_cons.1 he with rfl | he
            · exact hqp
            · exact popMinPair_min hrec e he

/-- A predicate containing the source and closed under adjacency holds of
every reachable node. -/
theorem closed_pred_complete {adj : Adjacency} {s : Nat} {P : Nat → Prop}
    (hs : P s) (hcl : ∀ u, P u → ∀ v ∈ adj u, P v) :
    ∀ (k x : Nat), IsDist adj s x k → P x := by
  intro k
  induction k using Nat.strong_induction_on with
  | _ k ih =>
      intro x hx
      match k, hx with
      | 0, hx => exact (walk_zero hx.1) ▸ hs
      | k + 1, hx =>
          obtain ⟨u, wu, hedge⟩ := walk_snoc_inv hx.1
          obtain ⟨ku, hku⟩ := reach_isDist ⟨k, wu⟩
          have hlt : ku < k + 1 := Nat.lt_succ_of_le (isDist_le_walk hku wu)
          exact hcl u (ih ku hlt u hku) x hedge

/-- Lowering one entry of the `dist` vector strictly lowers the potential. -/
theorem dijPotential_set (n : Nat) (dist : List (Option Nat)) (v : Nat)
    (o' : Option Nat) (hv : v < n) (hlen : dist.length = n)
    (hlt : dijRoom n o' < dijRoom n (dist.getD v none)) :
    dijPotential n (dist.set v o') + 1 ≤ dijPotential n dist := by
  unfold dijPotential
  have hvr : v ∈ Finset.range n := Finset.mem_range.2 hv
  rw [← Finset.add_sum_erase _ _ hvr, ← Finset.add_sum_erase _
    (fun x => dijRoom n (dist.getD x none)) hvr]
  have hset : (dist.set v o').getD v none = o' := by
    rw [List.getD_eq_getElem?_getD, List.getElem?_set_self (by omega)]
    rfl
  have hrest : ∀ x ∈ (Finset.range n).erase v,
      (dist.set v o').getD x none = dist.getD x none := by
    intro x hx
    have hxv : x ≠ v := (Finset.mem_erase.1 hx).1
    rw [List.getD_eq_getElem?_getD, List.getD_eq_getElem?_getD,
      List.getElem?_set_ne (fun he => hxv he.symm)]
  rw [hset, Finset.sum_congr rfl fun x hx => by rw [hrest x hx]]
  omega

/-- Reading back a freshly set `dist` entry. -/
theorem distGetD_set_self (l : List (Option Nat)) (i : Nat) (o : Option Nat)
    (h : i < l.length) : (l.set i o).getD i none = o := by
  rw [List.getD_eq_getElem?_getD, List.getElem?_set_self h]
  rfl

/-- Reading an untouched `dist` entry. -/
theorem distGetD_set_ne (l : List (Option Nat)) (i j : Nat) (o : Option Nat)
    (h : i ≠ j) : (l.set i o).getD j none = l.getD j none := by
  rw [List.getD_eq_getElem?_getD, List.getD_eq_getElem?_getD,
    List.getElem?_set_ne h]

/-- The Dijkstra relaxation fold preserves the loop invariants, relaxes every
processed neighbor of the newly finalized node `u`, only lowers labels, and
does not increase the termination potential. -/
theorem dijkstraRelax_spec (n : Nat) (adj : Adjacency) (s u du : Nat)
    (S : Nat → Prop) (hadj : ∀ w, w < n → ∀ v ∈ adj w, v < n)
    (hu_lt : u < n) (hdu : IsDist adj s u du) (hdun : du + 1 ≤ n) :
    ∀ (nbs : List Nat) (dist : List (Option Nat)) (pq : List (Nat × Nat)),
      (∀ v ∈ nbs, v ∈ adj u) →
      dist.length = n →
      (∀ x k, dist.getD x none = some k → Walk adj s x k ∧ k ≤ n) →
      (∀ e ∈ pq, Walk adj s e.2 e.1 ∧ e.2 < n ∧
          ∃ dv, dist.getD e.2 none = some dv ∧ dv ≤ e.1) →
      (∀ w, S w → ∃ k, dist.getD w none = some k ∧ IsDist adj s w k) →
      (∀ w, S w → ∀ v ∈ adj w, ∃ kv, dist.getD v none = some kv ∧
          ∀ kw, IsDist adj s w kw → kv ≤ kw + 1) →
      (∀ x k, dist.getD x none = some k → S x ∨ x = u ∨ (k, x) ∈ pq) →
      dist.getD s none = some 0 →
      DijRelaxOut n adj s u du S nbs dist pq (dijkstraRelax du nbs dist pq)
  | [], dist, pq, _, hlen, hvalid, hpqv, hsd, hsr, hcov, hsrc0 =>
      { len := hlen
        valid := hvalid
        pq_valid := hpqv
        sdist := hsd
        srelax := hsr
        coverage := hcov
        src0 := hsrc0
        nbs_relaxed := by simp
        mono := fun x k hx => ⟨k, hx, Nat.le_refl _⟩
        potential := Nat.le_refl _ }
  | nb :: rest, dist, pq, hnbs, hlen, hvalid, hpqv, hsd, hsr, hcov, hsrc0 => by
      have hnb_adj : nb ∈ adj u := hnbs nb (List.mem_cons_self _ _)
      have hnb_lt : nb < n := hadj u hu_lt nb hnb_adj
      have wnb : Walk adj s nb (du + 1) := Walk.snoc hdu.1 hnb_adj
      cases hdist : dist.getD nb none with
      | none =>
          rw [show dijkstraRelax du (nb :: rest) dist pq =
              dijkstraRelax du rest (dist.set nb (some (du + 1)))
                (pq ++ [(du + 1, nb)]) from by
            simp only [dijkstraRelax]
            rw [hdist]
            simp]
          have hset : (dist.set nb (some (du + 1))).getD nb none =
              some (du + 1) := distGetD_set_self _ _ _ (by omega)
          have hne : ∀ x, x ≠ nb →
              (dist.set nb (some (du + 1))).getD x none = dist.getD x none :=
            fun x hx => distGetD_set_ne _ _ _ _ (fun he => hx he.symm)
          have ih := dijkstraRelax_spec n adj s u du S hadj hu_lt hdu hdun rest
            (dist.set nb (some (du + 1))) (pq ++ [(du + 1, nb)])
            (fun v hv => hnbs v (List.mem_cons_of_mem _ hv))
            (by rw [List.length_set]; exact hlen)
            (by
              intro x k hx
              by_cases hxnb : x = nb
              · subst hxnb
                rw [hset] at hx
                cases hx
                exact ⟨wnb, hdun⟩
              · exact hvalid x k (by rw [← hne x hxnb]; exact hx))
            (by
              intro e he
              rcases List.mem_append.1 he with he | he
              · obtain ⟨hw, hlt, dv, hdv, hdvle⟩ := hpqv e he
                by_cases hxnb : e.2 = nb
                · rw [hxnb, hdist] at hdv
                  cases hdv
                · exact ⟨hw, hlt, dv, by rw [hne e.2 hxnb]; exact hdv, hdvle⟩
              · rw [List.mem_singleton.1 he]
                exact ⟨wnb, hnb_lt, du + 1, hset, Nat.le_refl _⟩)
            (by
              intro w hw
              obtain ⟨k, hk, hkd⟩ := hsd w hw
              by_cases hxnb : w = nb
              · rw [hxnb, hdist] at hk
                cases hk
              · exact ⟨k, by rw [hne w hxnb]; exact hk, hkd⟩)
            (by
              intro w hw v hv
              obtain ⟨kv, hkv, hb⟩ := hsr w hw v hv
              by_cases hxnb : v = nb
              · rw [hxnb, hdist] at hkv
                cases hkv
              · exact ⟨kv, by rw [hne v hxnb]; exact hkv, hb⟩)
            (by
              intro x k hx
              by_cases hxnb : x = nb
              · subst hxnb
                rw [hset] at hx
                cases hx
                exact Or.inr (Or.inr
                  (List.mem_append.2 (Or.inr (List.mem_singleton.2 rfl))))
              · rcases hcov x k (by rw [← hne x hxnb]; exact hx) with h | h | h
                · exact Or.inl h
                · exact Or.inr (Or.inl h)
                · exact Or.inr (Or.inr (List.mem_append.2 (Or.inl h))))
            (by
              have hsnb : s ≠ nb := by
                intro he
                rw [← he] at hdist
                rw [hdist] at hsrc0
                cases hsrc0
              rw [hne s hsnb]
              exact hsrc0)
          refine
            { len := ih.len
              valid := ih.valid
              pq_valid := ih.pq_valid
              sdist := ih.sdist
              srelax := ih.srelax
              coverage := ih.coverage
              src0 := ih.src0
              nbs_relaxed := ?_
              mono := ?_
              potential := ?_ }
          · intro v hv
            rcases List.mem_cons.1 hv with rfl | hv
            · obtain ⟨k', hk', hk'le⟩ := ih.mono v (du + 1) hset
              exact ⟨k', hk', by omega⟩
            · exact ih.nbs_relaxed v hv
          · intro x k hx
            by_cases hxnb : x = nb
            · subst hxnb
              rw [hx] at hdist
              cases hdist
            · obtain ⟨k', hk', hle⟩ := ih.mono x k (by rw [hne x hxnb]; exact hx)
              exact ⟨k', hk', hle⟩
          · have hpot : dijPotential n (dist.set nb (some (du + 1))) + 1 ≤
                dijPotential n dist :=
              dijPotential_set n dist nb (some (du + 1)) hnb_lt hlen
                (by rw [hdist]; simp [dijRoom]; omega)
            have := ih.potential
            simp only [List.length_append, List.length_cons, List.length_nil]
              at this ⊢
            omega
      | some dnb =>
          by_cases hbetter : du + 1 < dnb
          · rw [show dijkstraRelax du (nb :: rest) dist pq =
                dijkstraRelax du rest (dist.set nb (some (du + 1)))
                  (pq ++ [(du + 1, nb)]) from by
              simp only [dijkstraRelax]
              rw [hdist]
              simp [hbetter]]
            have hset : (dist.set nb (some (du + 1))).getD nb none =
                some (du + 1) := distGetD_set_self _ _ _ (by omega)
            have hne : ∀ x, x ≠ nb →
                (dist.set nb (some (du + 1))).getD x none = dist.getD x none :=
              fun x hx => distGetD_set_ne _ _ _ _ (fun he => hx he.symm)
            have ih := dijkstraRelax_spec n adj s u du S hadj hu_lt hdu hdun rest
              (dist.set nb (some (du + 1))) (pq ++ [(du + 1, nb)])
              (fun v hv => hnbs v (List.mem_cons_of_mem _ hv))
              (by rw [List.length_set]; exact hlen)
              (by
                intro x k hx
                by_cases hxnb : x = nb
                · subst hxnb
                  rw [hset] at hx
                  cases hx
                  exact ⟨wnb, hdun⟩
                · exact hvalid x k (by rw [← hne x hxnb]; exact hx))
              (by
                intro e he
                rcases List.mem_append.1 he with he | he
                · obtain ⟨hw, hlt, dv, hdv, hdvle⟩ := hpqv e he
                  by_cases hxnb : e.2 = nb
                  · refine ⟨hw, hlt, du + 1, by rw [hxnb]; exact hset, ?_⟩
                    rw [hxnb, hdist] at hdv
                    cases hdv
                    omega
                  · exact ⟨hw, hlt, dv, by rw [hne e.2 hxnb]; exact hdv, hdvle⟩
                · rw [List.mem_singleton.1 he]
                  exact ⟨wnb, hnb_lt, du + 1, hset, Nat.le_refl _⟩)
              (by
                intro w hw
                obtain ⟨k, hk, hkd⟩ := hsd w hw
                by_cases hxnb : w = nb
                · subst hxnb
                  rw [hdist] at hk
                  cases hk
                  have hkle : dnb ≤ du + 1 := isDist_le_walk hkd wnb
                  omega
                · exact ⟨k, by rw [hne w hxnb]; exact hk, hkd⟩)
              (by
                intro w hw v hv
                obtain ⟨kv, hkv, hb⟩ := hsr w hw v hv
                by_cases hxnb : v = nb
                · subst hxnb
                  rw [hdist] at hkv
                  cases hkv
                  exact ⟨du + 1, hset, fun kw hkw => by
                    have := hb kw hkw
                    omega⟩
                · exact ⟨kv, by rw [hne v hxnb]; exact hkv, hb⟩)
              (by
                intro x k hx
                by_cases hxnb : x = nb
                · subst hxnb
                  rw [hset] at hx
                  cases hx
                  exact Or.inr (Or.inr
                    (List.mem_append.2 (Or.inr (List.mem_singleton.2 rfl))))
                · rcases hcov x k (by rw [← hne x hxnb]; exact hx) with h | h | h
                  · exact Or.inl h
                  · exact Or.inr (Or.inl h)
                  · exact Or.inr (Or.inr (List.mem_append.2 (Or.inl h))))
              (by
                have hsnb : s ≠ nb := by
                  intro he
                  rw [← he] at hdist
                  rw [hdist] at hsrc0
                  cases hsrc0
                  omega
                rw [hne s hsnb]
                exact hsrc0)
            refine
              { len := ih.len
                valid := ih.valid
                pq_valid := ih.pq_valid
                sdist := ih.sdist
                srelax := ih.srelax
                coverage := ih.coverage
                src0 := ih.src0
                nbs_relaxed := ?_
                mono := ?_
                potential := ?_ }
            · intro v hv
              rcases List.mem_cons.1 hv with rfl | hv
              · obtain ⟨k', hk', hk'le⟩ := ih.mono v (du + 1) hset
                exact ⟨k', hk', by omega⟩
              · exact ih.nbs_relaxed v hv
            · intro x k hx
              by_cases hxnb : x = nb
              · subst hxnb
                rw [hx] at hdist
                cases hdist
                obtain ⟨k', hk', hle⟩ := ih.mono x (du + 1) hset
                exact ⟨k', hk', by omega⟩
              · obtain ⟨k', hk', hle⟩ :=
                  ih.mono x k (by rw [hne x hxnb]; exact hx)
                exact ⟨k', hk', hle⟩
            · have hpot : dijPotential n (dist.set nb (some (du + 1))) + 1 ≤
                  dijPotential n dist :=
                dijPotential_set n dist nb (some (du + 1)) hnb_lt hlen
                  (by rw [hdist]; simp [dijRoom]; omega)
              have := ih.potential
              simp only [List.length_append, List.length_cons, List.length_nil]
                at this ⊢
              omega
          · rw [show dijkstraRelax du (nb :: rest) dist pq =
                dijkstraRelax du rest dist pq from by
              simp only [dijkstraRelax]
              rw [hdist]
              simp [hbetter]]
            have ih := dijkstraRelax_spec n adj s u du S hadj hu_lt hdu hdun rest
              dist pq (fun v hv => hnbs v (List.mem_cons_of_mem _ hv))
              hlen hvalid hpqv hsd hsr hcov hsrc0
            refine
              { len := ih.len
                valid := ih.valid
                pq_valid := ih.pq_valid
                sdist := ih.sdist
                srelax := ih.srelax
                coverage := ih.coverage
                src0 := ih.src0
                nbs_relaxed := ?_
                mono := ih.mono
                potential := ih.potential }
            intro v hv
            rcases List.mem_cons.1 hv with rfl | hv
            · obtain ⟨k', hk', hle⟩ := ih.mono v dnb hdist
              exact ⟨k', hk', by omega⟩
            · exact ih.nbs_relaxed v hv

/-- The classic Dijkstra argument: a non-stale minimum pop `(d, u)` (the
popped key equals `u`'s current label) carries the exact shortest-walk
distance of `u`, given the loop invariants with finalized ghost set `S`. -/
theorem dijkstra_pop_exact {n : Nat} {adj : Adjacency} {s : Nat}
    {S : Nat → Prop} {dist : List (Option Nat)} {pq pqRest : List (Nat × Nat)}
    {d u : Nat}
    (hpop : popMinPair pq = some ((d, u), pqRest))
    (hvalid : ∀ x k, dist.getD x none = some k → Walk adj s x k ∧ k ≤ n)
    (hsd : ∀ w, S w → ∃ k, dist.getD w none = some k ∧ IsDist adj s w k)
    (hsr : ∀ w, S w → ∀ v ∈ adj w, ∃ kv, dist.getD v none = some kv ∧
        ∀ kw, IsDist adj s w kw → kv ≤ kw + 1)
    (hcov : ∀ x k, dist.getD x none = some k → S x ∨ (k, x) ∈ pq)
    (hsrc0 : dist.getD s none = some 0)
    (hlab : dist.getD u none = some d) :
    IsDist adj s u d := by
  have wu : Walk adj s u d := (hvalid u d hlab).1
  by_cases hSu : S u
  · obtain ⟨k, hk, hkd⟩ := hsd u hSu
    rw [hlab] at hk
    have hdk : d = k := Option.some.inj hk
    rw [hdk]
    exact hkd
  · by_cases hSs : S s
    · obtain ⟨kstar, hstar⟩ := reach_isDist ⟨d, wu⟩
      have hdk : d ≤ kstar := by
        obtain ⟨j, x, y, hj, wx, hxy, hSx, hSy, _⟩ :=
          walk_escape hstar.1 hSs hSu
        obtain ⟨kx, hkx⟩ := reach_isDist ⟨j, wx⟩
        have hkxj : kx ≤ j := isDist_le_walk hkx wx
        obtain ⟨kv, hkv, hb⟩ := hsr x hSx y hxy
        have hkvb : kv ≤ kx + 1 := hb kx hkx
        rcases hcov y kv hkv with hSy' | hmem
        · exact absurd hSy' hSy
        · have := popMinPair_min hpop (kv, y) hmem
          omega
      exact ⟨wu, fun j hw => Nat.le_trans hdk (hstar.2 j hw)⟩
    · rcases hcov s 0 hsrc0 with hSs' | hmem
      · exact absurd hSs' hSs
      · have hd0 : d ≤ 0 := popMinPair_min hpop (0, s) hmem
        have hdeq : d = 0 := Nat.le_antisymm hd0 (Nat.zero_le _)
        subst hdeq
        have hus : u = s := walk_zero wu
        rw [hus]
        exact isDist_self adj s

/-- The Dijkstra loop of `ExpanderGraph::get_distance`, run with fuel above
the termination potential from any state satisfying the loop invariants,
returns the exact shortest-walk distance of `dest` when it is reachable and
`none` (the source's `UINT32_MAX`) when it is not. -/
theorem dijkstraLoop_spec (n : Nat) (adj : Adjacency) (s dest : Nat)
    (hadj : ∀ w, w < n → ∀ v ∈ adj w, v < n) (hs : s < n) :
    ∀ (fuel : Nat) (S : Nat → Prop) (pq : List (Nat × Nat))
      (dist : List (Option Nat)),
      dist.length = n →
      (∀ x k, dist.getD x none = some k → Walk adj s x k ∧ k ≤ n) →
      (∀ e ∈ pq, Walk adj s e.2 e.1 ∧ e.2 < n ∧
          ∃ dv, dist.getD e.2 none = some dv ∧ dv ≤ e.1) →
      (∀ w, S w → ∃ k, dist.getD w none = some k ∧ IsDist adj s w k) →
      (∀ w, S w → ∀ v ∈ adj w, ∃ kv, dist.getD v none = some kv ∧
          ∀ kw, IsDist adj s w kw → kv ≤ kw + 1) →
      (∀ x k, dist.getD x none = some k → S x ∨ (k, x) ∈ pq) →
      dist.getD s none = some 0 →
      ¬ S dest →
      pq.length + dijPotential n dist < fuel →
      (∀ k, IsDist adj s dest k →
          dijkstraLoop adj dest fuel pq dist = some k) ∧
      (¬ Reach adj s dest → dijkstraLoop adj dest fuel pq dist = none)
  | 0, _, pq, dist, _, _, _, _, _, _, _, _, hfuel => absurd hfuel (by omega)
  | fuel + 1, S, pq, dist, hlen, hvalid, hpqv, hsd, hsr, hcov, hsrc0, hSdest,
      hfuel => by
    cases hpop : popMinPair pq with
    | none =>
        have hpq : pq = [] := popMinPair_eq_none.1 hpop
        subst hpq
        have hlabS : ∀ x k, dist.getD x none = some k → S x := by
          intro x k hx
          rcases hcov x k hx with h | h
          · exact h
          · exact absurd h (List.not_mem_nil _)
        have hSs : S s := hlabS s 0 hsrc0
        have hcl : ∀ w, S w → ∀ v ∈ adj w, S v := by
          intro w hw v hv
          obtain ⟨kv, hkv, _⟩ := hsr w hw v hv
          exact hlabS v kv hkv
        have hred : dijkstraLoop adj dest (fuel + 1) [] dist =
            dist.getD dest none := rfl
        constructor
        · intro k hk
          exact absurd (closed_pred_complete hSs hcl k dest hk) hSdest
        · intro _
          rw [hred]
          cases hdd : dist.getD dest none with
          | none => rfl
          | some k => exact absurd (hlabS dest k hdd) hSdest
    | some md =>
        obtain ⟨⟨d, u⟩, pqRest⟩ := md
        have hperm := popMinPair_perm hpop
        have hmem : (d, u) ∈ pq := hperm.mem_iff.2 (List.mem_cons_self _ _)
        obtain ⟨wu, hu_lt, du, hdu, hdule⟩ := hpqv (d, u) hmem
        have hlenpq : pq.length = pqRest.length + 1 := by
          have := hperm.length_eq
          simpa using this
        have hmemRest : ∀ e ∈ pqRest, e ∈ pq := fun e he =>
          hperm.mem_iff.2 (List.mem_cons_of_mem _ he)
        by_cases hud : u = dest
        · have hSu : ¬ S u := by rw [hud]; exact hSdest
          rcases hcov u du hdu with hS | hmemdu
          · exact absurd hS hSu
          have hdmin : d ≤ du := popMinPair_min hpop (du, u) hmemdu
          have hddu : du = d := Nat.le_antisymm hdule hdmin
          have hlab : dist.getD u none = some d := by rw [hdu, hddu]
          have hexact : IsDist adj s u d :=
            dijkstra_pop_exact hpop hvalid hsd hsr hcov hsrc0 hlab
          have hred : dijkstraLoop adj dest (fuel + 1) pq dist = some d := by
            simp only [dijkstraLoop]
            rw [hpop]
            simp [hud]
          have hex2 : IsDist adj s dest d := by rw [← hud]; exact hexact
          constructor
          · intro k hk
            rw [hred, isDist_unique hex2 hk]
          · intro hnr
            exact absurd ⟨d, hex2.1⟩ hnr
        · by_cases hstale : du < d
          · have hcovR : ∀ x k, dist.getD x none = some k →
                S x ∨ (k, x) ∈ pqRest := by
              intro x k hx
              rcases hcov x k hx with h | h
              · exact Or.inl h
              · rcases List.mem_cons.1 (hperm.mem_iff.1 h) with heq | h
                · exfalso
                  have hx2 : x = u := congrArg Prod.snd heq
                  have hk2 : k = d := congrArg Prod.fst heq
                  rw [hx2, hdu] at hx
                  have := Option.some.inj hx
                  omega
                · exact Or.inr h
            have hih := dijkstraLoop_spec n adj s dest hadj hs fuel S pqRest
              dist hlen hvalid (fun e he => hpqv e (hmemRest e he)) hsd hsr
              hcovR hsrc0 hSdest (by omega)
            have hred : dijkstraLoop adj dest (fuel + 1) pq dist =
                dijkstraLoop adj dest fuel pqRest dist := by
              simp only [dijkstraLoop]
              rw [hpop]
              simp only [if_neg hud]
              rw [hdu]
              simp [hstale]
            rw [hred]
            exact hih
          · have hddu : du = d := Nat.le_antisymm hdule (by omega)
            have hlab : dist.getD u none = some d := by rw [hdu, hddu]
            have hexact : IsDist adj s u d :=
              dijkstra_pop_exact hpop hvalid hsd hsr hcov hsrc0 hlab
            have hdn : d + 1 ≤ n := isDist_succ_le n adj s u d hadj hs hexact
            have hout := dijkstraRelax_spec n adj s u d S hadj hu_lt hexact hdn
              (adj u) dist pqRest (fun v hv => hv) hlen hvalid
              (fun e he => hpqv e (hmemRest e he)) hsd hsr
              (by
                intro x k hx
                rcases hcov x k hx with h | h
                · exact Or.inl h
                · rcases List.mem_cons.1 (hperm.mem_iff.1 h) with heq | h
                  · exact Or.inr (Or.inl (congrArg Prod.snd heq))
                  · exact Or.inr (Or.inr h))
              hsrc0
            have hSd' : ¬ (S dest ∨ dest = u) := fun h =>
              h.elim hSdest (fun he => hud he.symm)
            have hlab' : (dijkstraRelax d (adj u) dist pqRest).1.getD u none =
                some d := by
              obtain ⟨k', hk', hle⟩ := hout.mono u d hlab
              have hw' := (hout.valid u k' hk').1
              have hdk' : d ≤ k' := isDist_le_walk hexact hw'
              have hk'd : k' = d := by omega
              rw [hk'd] at hk'
              exact hk'
            have hih := dijkstraLoop_spec n adj s dest hadj hs fuel
              (fun x => S x ∨ x = u) (dijkstraRelax d (adj u) dist pqRest).2
              (dijkstraRelax d (adj u) dist pqRest).1
              hout.len hout.valid hout.pq_valid
              (by
                intro w hw
                rcases hw with hw | hw
                · exact hout.sdist w hw
                · rw [hw]
                  exact ⟨d, hlab', hexact⟩)
              (by
                intro w hw v hv
                rcases hw with hw | hw
                · exact hout.srelax w hw v hv
                · rw [hw] at hv ⊢
                  obtain ⟨kv, hkv, hle⟩ := hout.nbs_relaxed v hv
                  exact ⟨kv, hkv, fun kw hkw => by
                    rw [← isDist_unique hexact hkw]
                    exact hle⟩)
              (by
                intro x k hx
                rcases hout.coverage x k hx with h | h | h
                · exact Or.inl (Or.inl h)
                · exact Or.inl (Or.inr h)
                · exact Or.inr h)
              hout.src0
              (fun h => hSd' (h.imp id (fun he => he)))
              (by
                have := hout.potential
                omega)
            have hred : dijkstraLoop adj dest (fuel + 1) pq dist =
                dijkstraLoop adj dest fuel
                  (dijkstraRelax d (adj u) dist pqRest).2
                  (dijkstraRelax d (adj u) dist pqRest).1 := by
              simp only [dijkstraLoop]
              rw [hpop]
              simp only [if_neg hud]
              rw [hdu]
              simp [show ¬ (du < d) from hstale, hddu]
            rw [hred]
            exact hih

/-- `ExpanderGraph::get_distance(src, dest)` with `src ≠ dest` returns the
exact shortest-walk distance when `dest` is reachable and `none`
(`UINT32_MAX`) when it is not. -/
theorem get_distance_spec (n : Nat) (adj : Adjacency) (s dest : Nat)
    (hadj : ∀ w, w < n → ∀ v ∈ adj w, v < n) (hs : s < n) (hne : s ≠ dest) :
    (∀ k, IsDist adj s dest k → get_distance n adj s dest = some k) ∧
    (¬ Reach adj s dest → get_distance n adj s dest = none) := by
  set dist0 : List (Option Nat) :=
    (List.replicate n (none : Option Nat)).set s (some 0) with hdist0
  have hlen0 : dist0.length = n := by
    rw [hdist0]
    simp
  have hget : ∀ x, dist0.getD x none = if x = s then some 0 else none := by
    intro x
    by_cases hx : x = s
    · rw [if_pos hx, hx, hdist0]
      exact distGetD_set_self _ _ _ (by simp; omega)
    · rw [if_neg hx, hdist0,
        distGetD_set_ne _ _ _ _ (fun he => hx he.symm),
        List.getD_eq_getElem?_getD, List.getElem?_replicate]
      split <;> rfl
  have hsrc0 : dist0.getD s none = some 0 := by
    rw [hget s, if_pos rfl]
  have hpot : dijPotential n dist0 ≤ (n - 1) * (n + 1) := by
    unfold dijPotential
    have hvr : s ∈ Finset.range n := Finset.mem_range.2 hs
    rw [← Finset.add_sum_erase _ _ hvr]
    have h1 : dijRoom n (dist0.getD s none) = 0 := by
      rw [hsrc0]
      rfl
    rw [h1, Nat.zero_add]
    have hb : ∀ x ∈ (Finset.range n).erase s,
        dijRoom n (dist0.getD x none) ≤ n + 1 := by
      intro x hx
      rw [hget x, if_neg (Finset.mem_erase.1 hx).1]
      exact Nat.le_refl _
    calc ∑ x ∈ (Finset.range n).erase s, dijRoom n (dist0.getD x none)
        ≤ ((Finset.range n).erase s).card • (n + 1) :=
          Finset.sum_le_card_nsmul _ _ _ hb
      _ = (n - 1) * (n + 1) := by
          rw [Finset.card_erase_of_mem hvr, Finset.card_range, smul_eq_mul]
  have hmul : (n - 1) * (n + 1) + (n + 1) = n * n + n := by
    have h2 : (n - 1) + 1 = n := by omega
    calc (n - 1) * (n + 1) + (n + 1) = ((n - 1) + 1) * (n + 1) := by ring
      _ = n * (n + 1) := by rw [h2]
      _ = n * n + n := by ring
  have hfuelb : [(0, s)].length + dijPotential n dist0 < n * n + n + 1 := by
    simp only [List.length_singleton]
    generalize hA : (n - 1) * (n + 1) = A at hpot hmul
    generalize hB : n * n = B at hmul ⊢
    omega
  have hmain := dijkstraLoop_spec n adj s dest hadj hs (n * n + n + 1)
    (fun _ => False) [(0, s)] dist0 hlen0
    (by
      intro x k hx
      rw [hget x] at hx
      by_cases hxs : x = s
      · rw [if_pos hxs] at hx
        have hk0 : (0 : Nat) = k := Option.some.inj hx
        constructor
        · rw [hxs, ← hk0]
          exact Walk.nil
        · omega
      · rw [if_neg hxs] at hx
        cases hx)
    (by
      intro e he
      have he2 : e = (0, s) := List.mem_singleton.1 he
      subst he2
      exact ⟨Walk.nil, hs, 0, hsrc0, Nat.le_refl _⟩)
    (fun w hw => hw.elim)
    (fun w hw => hw.elim)
    (by
      intro x k hx
      rw [hget x] at hx
      by_cases hxs : x = s
      · rw [if_pos hxs] at hx
        have hk0 : (0 : Nat) = k := Option.some.inj hx
        refine Or.inr ?_
        rw [hxs, ← hk0]
        exact List.mem_singleton.2 rfl
      · rw [if_neg hxs] at hx
        cases hx)
    hsrc0
    (fun h => h)
    hfuelb
  have hgd : get_distance n adj s dest =
      dijkstraLoop adj dest (n * n + n + 1) [(0, s)] dist0 := by
    rw [get_distance, if_neg hne]
  constructor
  · intro k hk
    rw [hgd]
    exact hmain.1 k hk
  · intro h
    rw [hgd]
    exact hmain.2 h

/-- C4 (amended): for `ExpanderGraph` under the default shortest-path (BFS)
routing algorithm, `compute_hops_count(s, d)` — the Dijkstra shortest-path
distance of `get_distance` — equals the length of `route(s, d)` minus 1, for
every in-range pair `s ≠ d` with `d` reachable; under RandomTopK the returned
cached path may be strictly longer than this hop count (see the recorded
counterexample). -/
theorem C4_hops_match_shortest_route (n : Nat) (adj : Adjacency)
    (s dest : Nat) (hadj : ∀ u, u < n → ∀ v ∈ adj u, v < n) (hs : s < n)
    (hne : s ≠ dest) (hre : Reach adj s dest) :
    compute_hops_count n adj s dest =
      some ((route_shortest_path n adj s dest).length - 1) := by
  obtain ⟨k, hk, hlen⟩ :=
    (route_shortest_path_dist n adj s dest hadj hs (Ne.symm hne)).1 hre
  rw [show compute_hops_count n adj s dest = get_distance n adj s dest
    from rfl]
  rw [(get_distance_spec n adj s dest hadj hs hne).1 k hk, hlen]
  simp

/-- Concrete instantiation of the amended C4 on the 5-cycle. -/
theorem C4_hops_match_shortest_route_witness :
    compute_hops_count 5 cycle5Adj 0 2 =
      some ((route_shortest_path 5 cycle5Adj 0 2).length - 1) :=
  C4_hops_match_shortest_route 5 cycle5Adj 0 2 (by decide) (by decide)
    (by decide)
    ⟨2, Walk.snoc (Walk.snoc Walk.nil (show (1 : Nat) ∈ cycle5Adj 0 by decide))
      (show (2 : Nat) ∈ cycle5Adj 1 by decide)⟩

end AstraNet
